import Mathlib

/-!
Verification of the chroma-key transparency pipeline of
`src/utils/post-processor.ts` (background color selection, alpha keyer with
primary despill, fringe-mode resolution and hd boundary clear, boundary
despill, alpha-weighted despill, speckle cleanup).

The pixel buffer is embedded as a function `ℕ → ℕ → Pixel` together with
explicit dimensions; each in-place sweep of the source is embedded as a
`List.foldl` over the row-major coordinate list, updating the live buffer
exactly where the source writes.  All arithmetic the source performs on JS
doubles is idealized as exact arithmetic: rational numbers where the source
computes rationally, and exact decision procedures for the (finitely many)
comparisons against square roots that `Math.sqrt` / `Math.round` induce.
-/

namespace AlphaBanana

/-- JS `Math.round` on an exact rational: round half toward positive infinity. -/
def jsRound (x : ℚ) : ℤ := ⌊x + 1/2⌋

/-- The source's `Math.max(0, Math.min(255, n))` byte clamp. -/
def clamp255 (n : ℤ) : ℕ := (max 0 (min 255 n)).toNat

/-- Decides `c ≤ β * Real.sqrt q` (for `0 ≤ q`) by sign analysis and squaring. -/
def leMulSqrt (c β q : ℚ) : Bool :=
  if 0 ≤ β then
    if c ≤ 0 then true else decide (c ^ 2 ≤ β ^ 2 * q)
  else
    if 0 < c then false else decide (β ^ 2 * q ≤ c ^ 2)

/-- Rational-precision denominator used to bracket `β * Real.sqrt q` within `1/2`. -/
def sqrtPrec (β : ℚ) : ℕ := 2 * (⌈|β|⌉.toNat + 1)

/-- Fuel-based binary search for the integer square root (the kernel cannot
unfold the well-founded recursion of `Nat.sqrt`, and concrete evaluation of
the pipeline needs these helpers to reduce): on `[lo, hi]` with
`lo² ≤ n < (hi+1)²`, return the greatest `m` with `m² ≤ n`. -/
def natSqrtGo (n : ℕ) : ℕ → ℕ → ℕ → ℕ
  | 0, lo, _ => lo
  | fuel + 1, lo, hi =>
      if hi ≤ lo then lo
      else
        let mid := (lo + hi + 1) / 2
        if mid * mid ≤ n then natSqrtGo n fuel mid hi else natSqrtGo n fuel lo (mid - 1)

/-- Kernel-reducible integer square root (proved equal to `Nat.sqrt`). -/
def natSqrt (n : ℕ) : ℕ := natSqrtGo n (n + 1) 0 n

/-- Exact JS `Math.round (α + β * Math.sqrt q)` for `0 ≤ q`: bracket the
square root with `natSqrt` at enough precision to isolate at most two
candidate integers, then decide between them exactly with `leMulSqrt`. -/
def jsRoundSqrt (α β q : ℚ) : ℤ :=
  let p : ℕ := sqrtPrec β
  let s : ℕ := natSqrt ⌊q * (p : ℚ) ^ 2⌋.toNat
  let lo : ℚ := (s : ℚ) / p
  let hi : ℚ := ((s : ℚ) + 1) / p
  let base : ℚ := α + 1/2
  let n0 : ℤ := if 0 ≤ β then ⌊base + β * lo⌋ else ⌊base + β * hi⌋
  if leMulSqrt ((n0 : ℚ) + 1 - base) β q then n0 + 1 else n0

/-- Fuel-based integer fifth root: greatest `m` with `m^5 ≤ n` (binary search). -/
def nroot5Go (n : ℕ) : ℕ → ℕ → ℕ → ℕ
  | 0, lo, _ => lo
  | fuel + 1, lo, hi =>
      if hi ≤ lo then lo
      else
        let mid := (lo + hi + 1) / 2
        if mid ^ 5 ≤ n then nroot5Go n fuel mid hi else nroot5Go n fuel lo (mid - 1)

/-- Integer fifth root: greatest `m` with `m^5 ≤ n`. -/
def nroot5 (n : ℕ) : ℕ := nroot5Go n (n + 1) 0 n

/-- Decides `c ≤ β * t^(9/5)` for `0 ≤ t`, by raising to the (odd, hence
monotone) fifth power. -/
def leMulPow95 (c β t : ℚ) : Bool := decide (c ^ 5 ≤ β ^ 5 * t ^ 9)

/-- Exact JS `Math.round (α + β * Math.pow t (9/5))` for `0 ≤ t`
(the source's `alphaPower = 1.8` case), in the style of `jsRoundSqrt`. -/
def jsRoundPow95 (α β t : ℚ) : ℤ :=
  let p : ℕ := sqrtPrec β
  let s : ℕ := nroot5 ⌊t ^ 9 * (p : ℚ) ^ 5⌋.toNat
  let lo : ℚ := (s : ℚ) / p
  let hi : ℚ := ((s : ℚ) + 1) / p
  let base : ℚ := α + 1/2
  let n0 : ℤ := if 0 ≤ β then ⌊base + β * lo⌋ else ⌊base + β * hi⌋
  if leMulPow95 ((n0 : ℚ) + 1 - base) β t then n0 + 1 else n0

/-- One RGBA pixel of the raw byte buffer (each channel a byte value). -/
structure Pixel where
  r : ℕ
  g : ℕ
  b : ℕ
  a : ℕ
  deriving DecidableEq, Repr

/-- An RGB color (the key-selection functions traffic in plain colors). -/
structure RGB where
  r : ℕ
  g : ℕ
  b : ℕ
  deriving DecidableEq, Repr

/-- A raster image: dimensions plus the pixel buffer as a function.
Out-of-bounds values are irrelevant to (and untouched by) every sweep. -/
structure Image where
  width : ℕ
  height : ℕ
  px : ℕ → ℕ → Pixel

/-- Row-major coordinate list (y outer, x inner), matching every pixel loop
of the source. -/
def coords (w h : ℕ) : List (ℕ × ℕ) :=
  (List.range h).flatMap fun y => (List.range w).map fun x => (x, y)

/-- Point update of a pixel buffer. -/
def setPx (f : ℕ → ℕ → Pixel) (x y : ℕ) (p : Pixel) : ℕ → ℕ → Pixel :=
  fun x' y' => if x' = x ∧ y' = y then p else f x' y'

/-- The hue component of the source's `rgbToHsv` (the only component the
pipeline consumes), as an exact rational in `[0, 360)`. -/
def rgbToHsvH (r g b : ℕ) : ℚ :=
  let rn : ℚ := (r : ℚ) / 255
  let gn : ℚ := (g : ℚ) / 255
  let bn : ℚ := (b : ℚ) / 255
  let mx := max rn (max gn bn)
  let mn := min rn (min gn bn)
  let delta := mx - mn
  let h : ℚ :=
    if delta = 0 then 0
    else if mx = rn then 60 * ((gn - bn) / delta)
    else if mx = gn then 60 * ((bn - rn) / delta + 2)
    else 60 * ((rn - gn) / delta + 4)
  if h < 0 then h + 360 else h

/-- Circular hue distance, `hueDistance` of the source. -/
def hueDistance (a b : ℚ) : ℚ := min |a - b| (360 - |a - b|)

/-- Squared Euclidean RGB distance of a pixel from the key color (the source
compares `Math.sqrt` of this against thresholds; we compare squares). -/
def distSq (kr kg kb : ℕ) (p : Pixel) : ℚ :=
  (((p.r : ℤ) - kr) ^ 2 + ((p.g : ℤ) - kg) ^ 2 + ((p.b : ℤ) - kb) ^ 2 : ℤ)

/-- The source's `FringeMode`. -/
inductive FringeMode
  | auto
  | crisp
  | hd
  deriving DecidableEq, Repr

/-- The source's `DespillKind`, selected once from the key color's hue. -/
inductive DespillKind
  | magenta
  | green
  | blue
  | generic
  deriving DecidableEq, Repr

/-- Hue-family dispatch of `applyTransparency` (lines 319-324 of the source):
magenta for hue in `[270,360] ∪ [0,30]`, then green `[90,150]`, then blue
`[210,270]`, else generic. -/
def despillKindOf (keyHue : ℚ) : DespillKind :=
  if 270 ≤ keyHue ∨ keyHue ≤ 30 then .magenta
  else if 90 ≤ keyHue ∧ keyHue ≤ 150 then .green
  else if 210 ≤ keyHue ∧ keyHue ≤ 270 then .blue
  else .generic

/-- The source's `resolveFringeMode`: explicit crisp/hd pass through, auto
resolves to hd iff the longer target side exceeds 128. -/
def resolveFringeMode (mode : FringeMode) (width height : ℕ) : FringeMode :=
  match mode with
  | .crisp => .crisp
  | .hd => .hd
  | .auto => if 128 < max width height then .hd else .crisp

/-- Exact `Math.round (base + spillStrength * c)` where
`spillStrength = 1 - (d - rgbThreshold) / (rgbDespillThreshold - rgbThreshold)`,
`d = Math.sqrt dsq`, `rgbThreshold = tol * Math.SQRT2` and
`rgbDespillThreshold = rgbThreshold * 1.8` (source lines 314-315 and 345).
Given `a := tol * √2`, the strength expands to
`1 - (d - a) / (0.8 * a) = 9/4 - (5 / (4 * tol)) * √(dsq / 2)`, so the whole
argument is `(base + (9/4) * c) + (-(5 * c) / (4 * tol)) * √(dsq / 2)`, which
`jsRoundSqrt` rounds exactly.  (The `Math.max(0, ·)` around the strength in
the source is the identity on the despill branch, where `d ≤ 1.8 * a` forces
the strength to be nonnegative.) -/
def spillRound (tol dsq base c : ℚ) : ℤ :=
  jsRoundSqrt (base + 9/4 * c) (-(5 * c) / (4 * tol)) (dsq / 2)

/-- Per-pixel body of the alpha-keyer sweep (source lines 327-387): RGB
distance at most `rgbThreshold` clears alpha; distance in the despill zone
applies the hue-family correction scaled by the spill strength; farther
pixels are untouched.  The two zone tests compare squared distances:
`d ≤ tol * √2 ↔ dsq ≤ 2 * tol²` and `d ≤ 1.8 * tol * √2 ↔ dsq ≤ (162/25) * tol²`. -/
def keyPixel (kind : DespillKind) (kr kg kb : ℕ) (tol : ℚ) (p : Pixel) : Pixel :=
  let dsq := distSq kr kg kb p
  if dsq ≤ 2 * tol ^ 2 then
    { p with a := 0 }
  else if dsq ≤ 162/25 * tol ^ 2 then
    match kind with
    | .magenta =>
        let nr := spillRound tol dsq (p.r : ℚ) (-(max 0 ((p.r : ℚ) - (p.g : ℚ))))
        let nb := spillRound tol dsq (p.b : ℚ) (-(max 0 ((p.b : ℚ) - (p.g : ℚ))))
        { p with r := clamp255 nr, g := clamp255 (p.g : ℤ), b := clamp255 nb }
    | .green =>
        let gmax : ℕ := max p.r p.b
        let ng := spillRound tol dsq (p.g : ℚ) (-(max 0 ((p.g : ℚ) - (gmax : ℚ))))
        let greenExcess : ℤ := (p.g : ℤ) - (gmax : ℤ)
        if p.g > p.r ∧ p.g > p.b ∧ greenExcess > 10 then
          -- correction = spillStrength * greenExcess * 0.3, with the source's
          -- inner Math.max(0, Math.round(r - correction)) preceding the clamp
          let nr := max 0 (spillRound tol dsq (p.r : ℚ) (-(3/10 * (greenExcess : ℚ))))
          let nb := max 0 (spillRound tol dsq (p.b : ℚ) (-(3/10 * (greenExcess : ℚ))))
          { p with r := clamp255 nr, g := clamp255 ng, b := clamp255 nb }
        else
          { p with r := clamp255 (p.r : ℤ), g := clamp255 ng, b := clamp255 (p.b : ℤ) }
    | .blue =>
        let nb := spillRound tol dsq (p.b : ℚ) (-(max 0 ((p.b : ℚ) - (max p.r p.g : ℕ))))
        { p with r := clamp255 (p.r : ℤ), g := clamp255 (p.g : ℤ), b := clamp255 nb }
    | .generic =>
        let grey : ℤ := jsRound (((p.r : ℚ) + (p.g : ℚ) + (p.b : ℚ)) / 3)
        let nr := spillRound tol dsq (p.r : ℚ) (((grey : ℚ) - (p.r : ℚ)) * (1/2))
        let ng := spillRound tol dsq (p.g : ℚ) (((grey : ℚ) - (p.g : ℚ)) * (1/2))
        let nb := spillRound tol dsq (p.b : ℚ) (((grey : ℚ) - (p.b : ℚ)) * (1/2))
        { p with r := clamp255 nr, g := clamp255 ng, b := clamp255 nb }
  else
    p

/-- The alpha-keyer sweep over the image.  The source's loop reads and writes
only the current pixel, so the sweep is a pointwise map over the in-bounds
buffer. -/
def applyKeyer (kind : DespillKind) (kr kg kb : ℕ) (tol : ℚ) (img : Image) : Image :=
  { img with
    px := fun x y =>
      if x < img.width ∧ y < img.height then keyPixel kind kr kg kb tol (img.px x y)
      else img.px x y }

/-- The 8-connected neighbor offsets, in the source's enumeration order. -/
def neighborOffsets : List (ℤ × ℤ) :=
  [(-1, -1), (0, -1), (1, -1), (-1, 0), (1, 0), (-1, 1), (0, 1), (1, 1)]

/-- Whether some in-bounds 8-neighbor of `(x, y)` has alpha 0 under the given
alpha view (the source's `hasTransparentNeighbor` and the boundary pass's
neighbour scan; coordinates are signed there, so out-of-image neighbors are
skipped). -/
def hasTransparentNeighbor (alph : ℕ → ℕ → ℕ) (w h : ℕ) (x y : ℕ) : Bool :=
  neighborOffsets.any fun d =>
    let nx : ℤ := (x : ℤ) + d.1
    let ny : ℤ := (y : ℤ) + d.2
    decide (0 ≤ nx ∧ nx < (w : ℤ) ∧ 0 ≤ ny ∧ ny < (h : ℤ) ∧ alph nx.toNat ny.toNat = 0)

/-- The hd boundary clear (source lines 392-425): snapshot the alpha channel,
then for every live-opaque pixel with a snapshot-transparent 8-neighbor force
the live alpha to 0.  Embedded as the source's in-place double loop. -/
def hdBoundaryClear (img : Image) : Image :=
  let snap : ℕ → ℕ → ℕ := fun x y => (img.px x y).a
  { img with
    px :=
      (coords img.width img.height).foldl
        (fun buf c =>
          let p := buf c.1 c.2
          if p.a = 0 then buf
          else if hasTransparentNeighbor snap img.width img.height c.1 c.2 then
            setPx buf c.1 c.2 { p with a := 0 }
          else buf)
        img.px }

/-- The in-image cells of the 3×3 window around `(x, y)` (source lines
494-501): the loop bounds `Math.max(0, y-1) .. Math.min(height-1, y+1)`
truncate the window at the borders, so border pixels get fewer than 9 cells. -/
def windowCoords (w h x y : ℕ) : List (ℕ × ℕ) :=
  let x0 := x - 1
  let x1 := min (w - 1) (x + 1)
  let y0 := y - 1
  let y1 := min (h - 1) (y + 1)
  (List.range (y1 + 1 - y0)).flatMap fun dy =>
    (List.range (x1 + 1 - x0)).map fun dx => (x0 + dx, y0 + dy)

/-- The source's boundary-pass median (line 502): ascending sort, element at
index `⌊length / 2⌋`. -/
def bdMedian (l : List ℕ) : ℕ :=
  (l.mergeSort fun u v => decide (u ≤ v)).getD (l.length / 2) 0

/-- The correction step of the boundary despill switch (source lines
509-557), before the median blend: magenta clamps R and B toward the local
green median; green clamps G toward the pixel's own `max(R, B)` and, when the
excess exceeds 8, subtracts `forceStrength * excess * 0.35` from R and B;
blue clamps B toward `max(medR, medG)`; generic moves each channel 60% of the
way toward the local median, scaled by `forceStrength`. -/
def bdCorrect (kind : DespillKind) (fs : ℚ) (medR medG medB : ℕ) (p : Pixel) : Pixel :=
  match kind with
  | .magenta =>
      { p with
        r := clamp255 (jsRound ((p.r : ℚ) - fs * max 0 ((p.r : ℚ) - (medG : ℚ)))),
        b := clamp255 (jsRound ((p.b : ℚ) - fs * max 0 ((p.b : ℚ) - (medG : ℚ)))) }
  | .green =>
      let gBase : ℕ := max p.r p.b
      let gExcess : ℚ := max 0 ((p.g : ℚ) - (gBase : ℚ))
      let p1 := { p with g := clamp255 (jsRound ((p.g : ℚ) - fs * gExcess)) }
      if gExcess > 8 then
        let greyCorrection := fs * gExcess * (35/100)
        { p1 with
          r := clamp255 (jsRound ((p.r : ℚ) - greyCorrection)),
          b := clamp255 (jsRound ((p.b : ℚ) - greyCorrection)) }
      else p1
  | .blue =>
      { p with
        b := clamp255 (jsRound ((p.b : ℚ) - fs * max 0 ((p.b : ℚ) - (max medR medG : ℕ)))) }
  | .generic =>
      { p with
        r := clamp255 (jsRound ((p.r : ℚ) + fs * ((medR : ℚ) - (p.r : ℚ)) * (6/10))),
        g := clamp255 (jsRound ((p.g : ℚ) + fs * ((medG : ℚ) - (p.g : ℚ)) * (6/10))),
        b := clamp255 (jsRound ((p.b : ℚ) + fs * ((medB : ℚ) - (p.b : ℚ)) * (6/10))) }

/-- The conditional median blend of the boundary pass (applied when
`medianBlend > 0`), reading the already-corrected channels: each channel
becomes `round(channel * (1 - medianBlend) + median * medianBlend)`.  The
result of the convex combination of byte values is a byte value, so the
source's untyped array store is a plain store. -/
def bdBlend (mb : ℚ) (medR medG medB : ℕ) (p : Pixel) : Pixel :=
  if mb > 0 then
    { p with
      r := (jsRound ((p.r : ℚ) * (1 - mb) + (medR : ℚ) * mb)).toNat,
      g := (jsRound ((p.g : ℚ) * (1 - mb) + (medG : ℚ) * mb)).toNat,
      b := (jsRound ((p.b : ℚ) * (1 - mb) + (medB : ℚ) * mb)).toNat }
  else p

/-- The full per-pixel boundary update: the family correction followed by
the conditional median blend.  The source's switch (lines 509-557) places
the `if (medianBlend > 0)` blend block inside the magenta, green, and blue
cases only; the generic `default` case (lines 551-557) has no blend, so the
generic family is never blended toward the median. -/
def bdApply (kind : DespillKind) (fb mb : ℚ) (medR medG medB : ℕ) (p : Pixel) : Pixel :=
  if kind = .generic then bdCorrect kind fb medR medG medB p
  else bdBlend mb medR medG medB (bdCorrect kind fb medR medG medB p)

/-- One visit of the boundary despill pass at coordinate `c` (source lines
465-561): skip transparent pixels; otherwise, when some live 8-neighbor is
transparent, compute the three channel medians over the live 3×3 window and
store the corrected (and, outside the generic family, blended) pixel into
the live buffer. -/
def bdStep (kind : DespillKind) (fb mb : ℚ) (w h : ℕ)
    (buf : ℕ → ℕ → Pixel) (c : ℕ × ℕ) : ℕ → ℕ → Pixel :=
  let p := buf c.1 c.2
  if p.a = 0 then buf
  else if hasTransparentNeighbor (fun x y => (buf x y).a) w h c.1 c.2 then
    let win := windowCoords w h c.1 c.2
    let medR := bdMedian (win.map fun q => (buf q.1 q.2).r)
    let medG := bdMedian (win.map fun q => (buf q.1 q.2).g)
    let medB := bdMedian (win.map fun q => (buf q.1 q.2).b)
    setPx buf c.1 c.2 (bdApply kind fb mb medR medG medB p)
  else buf

/-- The boundary despill pass: the source's in-place row-major sweep.  Note
that it reads neighbor state (alpha and RGB) from the live buffer, not from a
stage-start snapshot. -/
def boundaryDespill (kind : DespillKind) (fb mb : ℚ) (img : Image) : Image :=
  { img with
    px := (coords img.width img.height).foldl (bdStep kind fb mb img.width img.height) img.px }

/-- Modelled from the spec: the reference boundary despill pass that "reads
exclusively from the stage-start snapshot, independent of pixel iteration
order" (spec §5 and claim C1) — each pixel's transparent-neighbor test and
3×3 medians are evaluated on the original buffer, with the same per-pixel
correction as the in-place pass. -/
def boundaryDespillSnapshotRef (kind : DespillKind) (fb mb : ℚ) (img : Image) : Image :=
  let snap := img.px
  { img with
    px := fun x y =>
      if x < img.width ∧ y < img.height then
        let p := snap x y
        if p.a = 0 then p
        else if hasTransparentNeighbor (fun u v => (snap u v).a) img.width img.height x y then
          let win := windowCoords img.width img.height x y
          let medR := bdMedian (win.map fun q => (snap q.1 q.2).r)
          let medG := bdMedian (win.map fun q => (snap q.1 q.2).g)
          let medB := bdMedian (win.map fun q => (snap q.1 q.2).b)
          bdApply kind fb mb medR medG medB p
        else p
      else snap x y }

/-- Exact `Math.round (base + (Math.pow t alphaPower * alphaCoef) * c)` of the
alpha-weighted pass, where `alphaPower` is `2.0` in hd mode (a rational
square) and `1.8 = 9/5` otherwise (handled by `jsRoundPow95`). -/
def awRound (isHd : Bool) (coef t base c : ℚ) : ℤ :=
  if isHd then jsRound (base + t ^ 2 * coef * c)
  else jsRoundPow95 base (coef * c) t

/-- Per-pixel body of the alpha-weighted despill pass (source lines 564-600):
only pixels with alpha strictly between 0 and 255 are touched; the strength
is `(1 - alpha/255) ^ alphaPower * alphaCoef`; the family corrections mirror
the boundary pass's constants (threshold 8, factor 0.35, generic factor 0.6
toward the greyscale average). -/
def awPixel (kind : DespillKind) (isHd : Bool) (coef : ℚ) (p : Pixel) : Pixel :=
  if p.a = 0 ∨ p.a = 255 then p
  else
    let t : ℚ := 1 - (p.a : ℚ) / 255
    match kind with
    | .magenta =>
        { p with
          r := clamp255 (awRound isHd coef t (p.r : ℚ) (-(max 0 ((p.r : ℚ) - (p.g : ℚ))))),
          b := clamp255 (awRound isHd coef t (p.b : ℚ) (-(max 0 ((p.b : ℚ) - (p.g : ℚ))))) }
    | .green =>
        let gBase : ℕ := max p.r p.b
        let gExcess : ℚ := max 0 ((p.g : ℚ) - (gBase : ℚ))
        let p1 := { p with g := clamp255 (awRound isHd coef t (p.g : ℚ) (-gExcess)) }
        if gExcess > 8 then
          { p1 with
            r := clamp255 (awRound isHd coef t (p.r : ℚ) (-(35/100 * gExcess))),
            b := clamp255 (awRound isHd coef t (p.b : ℚ) (-(35/100 * gExcess))) }
        else p1
    | .blue =>
        { p with
          b := clamp255 (awRound isHd coef t (p.b : ℚ)
                 (-(max 0 ((p.b : ℚ) - (max p.r p.g : ℕ))))) }
    | .generic =>
        let grey : ℤ := jsRound (((p.r : ℚ) + (p.g : ℚ) + (p.b : ℚ)) / 3)
        { p with
          r := clamp255 (awRound isHd coef t (p.r : ℚ) (((grey : ℚ) - (p.r : ℚ)) * (6/10))),
          g := clamp255 (awRound isHd coef t (p.g : ℚ) (((grey : ℚ) - (p.g : ℚ)) * (6/10))),
          b := clamp255 (awRound isHd coef t (p.b : ℚ) (((grey : ℚ) - (p.b : ℚ)) * (6/10))) }

/-- The alpha-weighted despill sweep: reads and writes only the current
pixel, hence a pointwise map. -/
def alphaWeightedDespill (kind : DespillKind) (isHd : Bool) (coef : ℚ) (img : Image) : Image :=
  { img with
    px := fun x y =>
      if x < img.width ∧ y < img.height then awPixel kind isHd coef (img.px x y)
      else img.px x y }

/-- Count of transparent 8-neighbors in the speckle pass's snapshot, with
out-of-image neighbors counted as transparent (source lines 617-631). -/
def speckleTransCount (snap : ℕ → ℕ → Pixel) (w h : ℕ) (x y : ℕ) : ℕ :=
  neighborOffsets.countP fun d =>
    let nx : ℤ := (x : ℤ) + d.1
    let ny : ℤ := (y : ℤ) + d.2
    decide (nx < 0 ∨ (w : ℤ) ≤ nx ∨ ny < 0 ∨ (h : ℤ) ≤ ny ∨ (snap nx.toNat ny.toNat).a = 0)

/-- The speckle cleanup (source lines 602-644): work from a snapshot of the
whole buffer; a snapshot-opaque pixel whose transparent-neighbor count is at
least 6 and whose snapshot color is within `cleanupThreshold` of the key
(`rgbThreshold * 2`, or `* 3` in hd mode; compared via squares:
`(2 * tol * √2)² = 8 * tol²` and `(3 * tol * √2)² = 18 * tol²`) gets its live
alpha forced to 0. -/
def speckleCleanup (kr kg kb : ℕ) (tol : ℚ) (isHd : Bool) (img : Image) : Image :=
  let snap := img.px
  let cleanupThreshSq : ℚ := (if isHd then 18 else 8) * tol ^ 2
  { img with
    px :=
      (coords img.width img.height).foldl
        (fun buf c =>
          let sp := snap c.1 c.2
          if sp.a = 0 then buf
          else if 6 ≤ speckleTransCount snap img.width img.height c.1 c.2 ∧
              distSq kr kg kb sp ≤ cleanupThreshSq then
            setPx buf c.1 c.2 { buf c.1 c.2 with a := 0 }
          else buf)
        img.px }

/-- Histogram bucket of a pixel: 4 bits per channel,
`((r >> 4) << 8) | ((g >> 4) << 4) | (b >> 4)` (source line 184). -/
def binIndex (p : Pixel) : ℕ := p.r / 16 * 256 + p.g / 16 * 16 + p.b / 16

/-- Center color of a histogram bucket: quantized value times 16 plus 8
(source lines 196-198 and 213-217). -/
def binCenter (idx : ℕ) : RGB :=
  ⟨idx / 256 % 16 * 16 + 8, idx / 16 % 16 * 16 + 8, idx % 16 * 16 + 8⟩

/-- All pixels of the image in the row-major order of the flat buffer. -/
def pixelList (img : Image) : List Pixel :=
  (coords img.width img.height).map fun c => img.px c.1 c.2

/-- Pixel count of a histogram bucket. -/
def binCount (img : Image) (idx : ℕ) : ℕ :=
  (pixelList img).countP fun p => binIndex p = idx

/-- One step of the histogram bucket scan (source lines 192-209): buckets
below `minArea` or beyond `hueTolerance` are skipped; otherwise the running
best `(index, distance, count)` is replaced exactly when the new distance is
strictly smaller, or equal with a strictly larger count.  `none` plays the
role of the initial `bestDistance = Infinity`. -/
def histStep (cnt : ℕ → ℕ) (targetHue hueTol minArea : ℚ) :
    Option (ℕ × ℚ × ℕ) → ℕ → Option (ℕ × ℚ × ℕ) := fun best idx =>
  let count := cnt idx
  if (count : ℚ) < minArea then best
  else
    let c := binCenter idx
    let hue := rgbToHsvH c.r c.g c.b
    let distance := hueDistance hue targetHue
    if hueTol < distance then best
    else
      match best with
      | none => some (idx, distance, count)
      | some (bi, bd, bc) =>
          if distance < bd ∨ (distance = bd ∧ bc < count) then some (idx, distance, count)
          else some (bi, bd, bc)

/-- The source's `pickHistogramColor`: scan the 4096 buckets and return the
center of the best qualifying bucket, or `none` when no bucket qualifies. -/
def pickHistogramColor (cnt : ℕ → ℕ) (targetHue hueTol minArea : ℚ) : Option RGB :=
  match (List.range 4096).foldl (histStep cnt targetHue hueTol minArea) none with
  | none => none
  | some (bi, _, _) => some (binCenter bi)

/-- The four corner colors, in the source's fixed offset order: top-left,
top-right, bottom-left, bottom-right (source lines 220-238). -/
def getCornerColors (img : Image) : List RGB :=
  [⟨(img.px 0 0).r, (img.px 0 0).g, (img.px 0 0).b⟩,
   ⟨(img.px (img.width - 1) 0).r, (img.px (img.width - 1) 0).g, (img.px (img.width - 1) 0).b⟩,
   ⟨(img.px 0 (img.height - 1)).r, (img.px 0 (img.height - 1)).g, (img.px 0 (img.height - 1)).b⟩,
   ⟨(img.px (img.width - 1) (img.height - 1)).r, (img.px (img.width - 1) (img.height - 1)).g,
    (img.px (img.width - 1) (img.height - 1)).b⟩]

/-- One step of the source's `pickCornerColor` loop: `none` is the initial
`bestDistance = Infinity`, and a corner replaces the best exactly when its
hue distance is strictly smaller. -/
def cornerStep (targetHue : ℚ) : RGB × Option ℚ → RGB → RGB × Option ℚ := fun best c =>
  let d := hueDistance (rgbToHsvH c.r c.g c.b) targetHue
  match best.2 with
  | none => (c, some d)
  | some bd => if d < bd then (c, some d) else (best.1, some bd)

/-- The source's `pickCornerColor`: first corner of minimal circular hue
distance to the target hue (strict improvement only, so ties keep the
earlier corner; the initial `cornerColors[0]` placeholder is replaced on the
first iteration since every distance beats Infinity). -/
def pickCornerColor (cornerColors : List RGB) (targetHue : ℚ) : RGB :=
  (cornerColors.foldl (cornerStep targetHue) (cornerColors.headD ⟨0, 0, 0⟩, none)).1

/-- Key-selection method tag of the source's `selectTransparentColor`. -/
inductive SelectionMethod
  | histogram
  | corner
  deriving DecidableEq, Repr

/-- The branch of the source's `selectTransparentColor` on the histogram
result (lines 162-167): a histogram hit is returned under the histogram
method, otherwise the corner pick under the corner method. -/
def selectResult (img : Image) (targetHue : ℚ) (r : Option RGB) :
    RGB × SelectionMethod × List RGB :=
  match r with
  | some c => (c, .histogram, getCornerColors img)
  | none => (pickCornerColor (getCornerColors img) targetHue, .corner, getCornerColors img)

/-- The source's `selectTransparentColor`: histogram first (with
`hueTolerance = tolerance / 255 * 120` and `minArea = 5%` of the pixel
count), corner-sampling fallback otherwise. -/
def selectTransparentColor (img : Image) (reqR reqG reqB : ℕ) (tol : ℚ) :
    RGB × SelectionMethod × List RGB :=
  selectResult img (rgbToHsvH reqR reqG reqB)
    (pickHistogramColor (binCount img) (rgbToHsvH reqR reqG reqB) (tol / 255 * 120)
      (((img.width * img.height : ℕ) : ℚ) * (5/100)))

/-- Boundary-pass strength by resolved mode (source line 459). -/
def forceBaseOf (m : FringeMode) : ℚ :=
  if m = .crisp then 0.4 else if m = .hd then 1.1 else 1.0

/-- Median-blend weight by resolved mode (source line 460). -/
def medianBlendOf (m : FringeMode) : ℚ :=
  if m = .crisp then 0.0 else if m = .hd then 0.2 else 0.15

/-- Alpha-weighted despill coefficient by resolved mode (source line 462). -/
def alphaCoefOf (m : FringeMode) : ℚ :=
  if m = .crisp then 0.0 else if m = .hd then 1.4 else 1.2

/-- The hd-only edge refinement step of `applyTransparency` (lines 390-425):
the boundary clear runs exactly when the resolved mode is hd. -/
def edgeRefine (resolved : FringeMode) (img : Image) : Image :=
  if resolved = .hd then hdBoundaryClear img else img

/-- The whole `applyTransparency` pipeline on a decoded RGBA buffer (the
source's intermediate re-interleave of lines 428-451 reconstructs the same
RGBA bytes and is the identity on the buffer): keyer sweep, hd boundary
clear, boundary despill, alpha-weighted despill, speckle cleanup. -/
def applyTransparency (kr kg kb : ℕ) (tol : ℚ) (outW outH : ℕ)
    (fringe : FringeMode) (img : Image) : Image :=
  let keyHue := rgbToHsvH kr kg kb
  let kind := despillKindOf keyHue
  let img1 := applyKeyer kind kr kg kb tol img
  let resolved := resolveFringeMode fringe outW outH
  let img2 := edgeRefine resolved img1
  let isHd := resolved = .hd
  let img3 := boundaryDespill kind (forceBaseOf resolved) (medianBlendOf resolved) img2
  let img4 := alphaWeightedDespill kind isHd (alphaCoefOf resolved) img3
  speckleCleanup kr kg kb tol isHd img4

/-- A 1×1 test image holding the spec §8 example pixel `RGB(255,60,255)`. -/
def c2img : Image := ⟨1, 1, fun _ _ => ⟨255, 60, 255, 255⟩⟩

/-- A 1×1 all-transparent image whose pixel lies in the despill zone of the
magenta key `#FF00FF` at tolerance 30 (distance `√3200 ≈ 56.6`). -/
def c9img : Image := ⟨1, 1, fun _ _ => ⟨215, 40, 255, 0⟩⟩

/-- A 1×1 image left behind by a keyer pass that keyed its only pixel. -/
def c9wimg : Image := ⟨1, 1, fun _ _ => ⟨255, 0, 255, 0⟩⟩

/-- A 4×1 image `[white-transparent, grey 100, grey 200, black-transparent]`
on which the in-place boundary despill differs from the snapshot reference. -/
def cimg4 : Image :=
  ⟨4, 1, fun x _ =>
    if x = 0 then ⟨255, 255, 255, 0⟩
    else if x = 1 then ⟨100, 100, 100, 255⟩
    else if x = 2 then ⟨200, 200, 200, 255⟩
    else ⟨0, 0, 0, 0⟩⟩

/-- A 3×1 image `[transparent, opaque, opaque]` exercising the hd boundary
clear: only the pixel adjacent to snapshot transparency is cleared. -/
def cimg31 : Image :=
  ⟨3, 1, fun x _ => if x = 0 then ⟨0, 0, 0, 0⟩ else ⟨50, 60, 70, 255⟩⟩

/-- A 3×3 image with a single isolated opaque key-colored pixel at the
center, all 8 neighbors transparent. -/
def cimgIso : Image :=
  ⟨3, 3, fun x y => if x = 1 ∧ y = 1 then ⟨255, 0, 255, 255⟩ else ⟨10, 10, 10, 0⟩⟩

/-- A solid 3×3 opaque block of the key color. -/
def cimgSolid : Image := ⟨3, 3, fun _ _ => ⟨255, 0, 255, 255⟩⟩

/-- Circular hue distance from a histogram bucket's center color to the
target hue (the `distance` computed at source lines 199-200). -/
def binDist (targetHue : ℚ) (idx : ℕ) : ℚ :=
  hueDistance (rgbToHsvH (binCenter idx).r (binCenter idx).g (binCenter idx).b) targetHue

/-- A bucket qualifies for histogram selection when its pixel count reaches
`minArea` and its center's hue distance to the target is within `hueTol`:
the negations of the scan's two `continue` guards (source lines 194 and 202). -/
def histQual (cnt : ℕ → ℕ) (targetHue hueTol minArea : ℚ) (idx : ℕ) : Prop :=
  minArea ≤ (cnt idx : ℚ) ∧ binDist targetHue idx ≤ hueTol

/-- Invariant of the histogram bucket scan: after processing the buckets of
`L`, `none` means no bucket of `L` qualified, while `some (bi, bd, bc)` is a
qualifying bucket of `L` carrying its own distance and count, minimal in
distance over the qualifying buckets of `L`, with distance ties resolved
toward strictly larger counts. -/
def histInv (cnt : ℕ → ℕ) (targetHue hueTol minArea : ℚ) (L : List ℕ)
    (r : Option (ℕ × ℚ × ℕ)) : Prop :=
  (r = none → ∀ j ∈ L, ¬ histQual cnt targetHue hueTol minArea j) ∧
  ∀ bi bd bc, r = some (bi, bd, bc) →
    bi ∈ L ∧ histQual cnt targetHue hueTol minArea bi ∧
      bd = binDist targetHue bi ∧ bc = cnt bi ∧
      ∀ j ∈ L, histQual cnt targetHue hueTol minArea j →
        bd ≤ binDist targetHue j ∧ (binDist targetHue j = bd → cnt j ≤ bc)

/-- Circular hue distance from a corner color to the target hue (the
`distance` of the source's `pickCornerColor` loop, lines 248-250). -/
def cornerDist (targetHue : ℚ) (c : RGB) : ℚ :=
  hueDistance (rgbToHsvH c.r c.g c.b) targetHue

/-- 2×1 image: a transparent pixel next to an opaque desaturated-green
pixel, exercising the green family of the boundary despill pass. -/
def c3img : Image :=
  ⟨2, 1, fun x _ => if x = 0 then ⟨0, 0, 0, 0⟩ else ⟨37, 218, 0, 255⟩⟩

/-- 3×1 image: a transparent pixel followed by two opaque pixels,
exercising the generic family of the boundary despill pass. -/
def c4img : Image :=
  ⟨3, 1, fun x _ =>
    if x = 0 then ⟨200, 0, 0, 0⟩
    else if x = 1 then ⟨0, 120, 30, 255⟩
    else ⟨100, 240, 60, 255⟩⟩

/-! Basic facts about the coordinate list and in-place sweeps. -/

theorem natSqrtGo_spec (n : ℕ) : ∀ (fuel lo hi : ℕ), lo * lo ≤ n → n < (hi + 1) * (hi + 1) →
    lo ≤ hi → hi - lo ≤ fuel →
    natSqrtGo n fuel lo hi * natSqrtGo n fuel lo hi ≤ n ∧
      n < (natSqrtGo n fuel lo hi + 1) * (natSqrtGo n fuel lo hi + 1) := by
  intro fuel
  induction fuel with
  | zero =>
      intro lo hi hlo hhi hle hfuel
      have : hi = lo := by omega
      subst this
      exact ⟨hlo, hhi⟩
  | succ fuel ih =>
      intro lo hi hlo hhi hle hfuel
      simp only [natSqrtGo]
      by_cases hhl : hi ≤ lo
      · rw [if_pos hhl]
        have : hi = lo := by omega
        subst this
        exact ⟨hlo, hhi⟩
      · rw [if_neg hhl]
        have hlt : lo < hi := by omega
        have hmid1 : lo + 1 ≤ (lo + hi + 1) / 2 := by omega
        have hmid2 : (lo + hi + 1) / 2 ≤ hi := by omega
        by_cases hsq : (lo + hi + 1) / 2 * ((lo + hi + 1) / 2) ≤ n
        · rw [if_pos hsq]
          exact ih _ _ hsq hhi (by omega) (by omega)
        · rw [if_neg hsq]
          have hm0 : 0 < (lo + hi + 1) / 2 := by omega
          have hup : n < ((lo + hi + 1) / 2 - 1 + 1) * ((lo + hi + 1) / 2 - 1 + 1) := by
            have : (lo + hi + 1) / 2 - 1 + 1 = (lo + hi + 1) / 2 := by omega
            rw [this]
            omega
          exact ih _ _ hlo hup (by omega) (by omega)

theorem natSqrt_eq (n : ℕ) : natSqrt n = Nat.sqrt n := by
  have h := natSqrtGo_spec n (n + 1) 0 n (by omega) (by nlinarith) (Nat.zero_le _) (by omega)
  unfold natSqrt
  refine le_antisymm (Nat.le_sqrt.2 h.1) ?_
  exact Nat.le_of_lt_succ (Nat.sqrt_lt.2 h.2)



theorem mem_coords {w h x y : ℕ} : (x, y) ∈ coords w h ↔ x < w ∧ y < h := by
  simp only [coords, List.mem_flatMap, List.mem_map, List.mem_range, Prod.mk.injEq]
  constructor
  · rintro ⟨y', hy', x', hx', rfl, rfl⟩
    exact ⟨hx', hy'⟩
  · rintro ⟨hx, hy⟩
    exact ⟨y, hy, x, hx, rfl, rfl⟩

theorem coords_nodup (w h : ℕ) : (coords w h).Nodup := by
  refine List.nodup_flatMap.2 ⟨fun y _ => ?_, ?_⟩
  · exact (List.nodup_range w).map fun a b hab => by simpa using congrArg Prod.fst hab
  · refine List.Pairwise.imp ?_ (List.pairwise_lt_range h)
    intro a b hab
    simp only [Function.onFun]
    rw [List.disjoint_left]
    rintro ⟨x, y⟩ hxa hxb
    simp only [Function.onFun, List.mem_map, List.mem_range, Prod.mk.injEq] at hxa hxb
    obtain ⟨_, _, _, rfl⟩ := hxa
    obtain ⟨_, _, _, h2⟩ := hxb
    exact absurd (h2 ▸ rfl) hab.ne

/-- A sweep whose visit at coordinate `c` writes only `c`, with a new value
that depends only on the pixel currently at `c`, is a pointwise map over the
visited coordinates. -/
theorem foldl_pointwise
    (step : (ℕ → ℕ → Pixel) → (ℕ × ℕ) → (ℕ → ℕ → Pixel))
    (u : ℕ × ℕ → Pixel → Pixel)
    (H1 : ∀ b c x y, ¬(x = c.1 ∧ y = c.2) → step b c x y = b x y)
    (H2 : ∀ b c, step b c c.1 c.2 = u c (b c.1 c.2)) :
    ∀ (L : List (ℕ × ℕ)), L.Nodup → ∀ (buf : ℕ → ℕ → Pixel) (x y : ℕ),
      L.foldl step buf x y = if (x, y) ∈ L then u (x, y) (buf x y) else buf x y := by
  intro L
  induction L with
  | nil => intro _ buf x y; simp
  | cons c L ih =>
      intro hnd buf x y
      have hndL : L.Nodup := hnd.of_cons
      rw [List.foldl_cons, ih hndL]
      by_cases hmem : (x, y) ∈ L
      · have hne : ¬(x = c.1 ∧ y = c.2) := by
          rintro ⟨rfl, rfl⟩
          exact (List.nodup_cons.1 hnd).1 (by simpa using hmem)
        rw [if_pos hmem, if_pos (List.mem_cons_of_mem _ hmem), H1 _ _ _ _ hne]
      · rw [if_neg hmem]
        by_cases hc : (x, y) = c
        · subst hc
          rw [if_pos (List.mem_cons_self _ _), H2]
        · have hne : ¬(x = c.1 ∧ y = c.2) := by
            rintro ⟨rfl, rfl⟩; exact hc rfl
          rw [H1 _ _ _ _ hne, if_neg (by simp [hc, hmem])]

/-- Pointwise characterization of the hd boundary clear: a pixel's live
alpha is forced to 0 exactly when it is opaque in the stage-start snapshot
and some in-bounds 8-neighbor is transparent in that snapshot; nothing else
(in particular no color channel) changes. -/
theorem hdBoundaryClear_px (img : Image) (x y : ℕ) :
    (hdBoundaryClear img).px x y =
      if x < img.width ∧ y < img.height then
        (if (img.px x y).a ≠ 0 ∧
            hasTransparentNeighbor (fun u v => (img.px u v).a) img.width img.height x y then
          { img.px x y with a := 0 }
        else img.px x y)
      else img.px x y := by
  have h := foldl_pointwise
    (fun buf c =>
      let p := buf c.1 c.2
      if p.a = 0 then buf
      else if hasTransparentNeighbor (fun u v => (img.px u v).a) img.width img.height c.1 c.2 then
        setPx buf c.1 c.2 { p with a := 0 }
      else buf)
    (fun c p =>
      if p.a ≠ 0 ∧
          hasTransparentNeighbor (fun u v => (img.px u v).a) img.width img.height c.1 c.2 then
        { p with a := 0 }
      else p)
    (by
      intro b c x' y' hne
      dsimp only
      split
      · rfl
      · split
        · simp [setPx, hne]
        · rfl)
    (by
      intro b c
      dsimp only
      by_cases h0 : (b c.1 c.2).a = 0
      · simp [h0]
      · by_cases hn :
          hasTransparentNeighbor (fun u v => (img.px u v).a) img.width img.height c.1 c.2 = true
        · simp [h0, hn, setPx]
        · simp [h0, hn])
    (coords img.width img.height) (coords_nodup _ _) img.px x y
  show (coords img.width img.height).foldl _ img.px x y = _
  rw [h]
  by_cases hin : x < img.width ∧ y < img.height
  · rw [if_pos (mem_coords.2 hin), if_pos hin]
  · rw [if_neg fun hmem => hin (mem_coords.1 hmem), if_neg hin]

/-- Pointwise characterization of the speckle cleanup: working entirely from
the stage-start snapshot, a snapshot-opaque pixel loses its alpha exactly
when at least 6 of its 8 neighbors (out-of-image ones included) are
snapshot-transparent and its snapshot color is within the extended threshold
of the key color. -/
theorem speckleCleanup_px (kr kg kb : ℕ) (tol : ℚ) (isHd : Bool) (img : Image) (x y : ℕ) :
    (speckleCleanup kr kg kb tol isHd img).px x y =
      if x < img.width ∧ y < img.height then
        (if (img.px x y).a ≠ 0 ∧
            6 ≤ speckleTransCount img.px img.width img.height x y ∧
            distSq kr kg kb (img.px x y) ≤ (if isHd then 18 else 8) * tol ^ 2 then
          { img.px x y with a := 0 }
        else img.px x y)
      else img.px x y := by
  have h := foldl_pointwise
    (fun buf c =>
      let sp := img.px c.1 c.2
      if sp.a = 0 then buf
      else if 6 ≤ speckleTransCount img.px img.width img.height c.1 c.2 ∧
          distSq kr kg kb sp ≤ (if isHd then 18 else 8) * tol ^ 2 then
        setPx buf c.1 c.2 { buf c.1 c.2 with a := 0 }
      else buf)
    (fun c p =>
      if (img.px c.1 c.2).a ≠ 0 ∧
          6 ≤ speckleTransCount img.px img.width img.height c.1 c.2 ∧
          distSq kr kg kb (img.px c.1 c.2) ≤ (if isHd then 18 else 8) * tol ^ 2 then
        { p with a := 0 }
      else p)
    (by
      intro b c x' y' hne
      dsimp only
      by_cases h0 : (img.px c.1 c.2).a = 0
      · rw [if_pos h0]
      · rw [if_neg h0]
        by_cases hc : 6 ≤ speckleTransCount img.px img.width img.height c.1 c.2 ∧
            distSq kr kg kb (img.px c.1 c.2) ≤ (if isHd then 18 else 8) * tol ^ 2
        · rw [if_pos hc]; simp [setPx, hne]
        · rw [if_neg hc])
    (by
      intro b c
      dsimp only
      by_cases h0 : (img.px c.1 c.2).a = 0
      · rw [if_pos h0, if_neg (by simp [h0])]
      · by_cases hc : 6 ≤ speckleTransCount img.px img.width img.height c.1 c.2 ∧
            distSq kr kg kb (img.px c.1 c.2) ≤ (if isHd then 18 else 8) * tol ^ 2
        · rw [if_neg h0, if_pos hc, if_pos ⟨h0, hc⟩]; simp [setPx]
        · rw [if_neg h0, if_neg hc, if_neg fun h => hc h.2])
    (coords img.width img.height) (coords_nodup _ _) img.px x y
  show (coords img.width img.height).foldl _ img.px x y = _
  rw [h]
  by_cases hin : x < img.width ∧ y < img.height
  · rw [if_pos (mem_coords.2 hin), if_pos hin]
  · rw [if_neg fun hmem => hin (mem_coords.1 hmem), if_neg hin]

/-! Channel-preservation facts for the individual per-pixel operations. -/

theorem bdCorrect_a (kind : DespillKind) (fs : ℚ) (medR medG medB : ℕ) (p : Pixel) :
    (bdCorrect kind fs medR medG medB p).a = p.a := by
  cases kind <;> simp only [bdCorrect] <;> split <;> rfl

theorem bdBlend_a (mb : ℚ) (medR medG medB : ℕ) (p : Pixel) :
    (bdBlend mb medR medG medB p).a = p.a := by
  simp only [bdBlend]; split <;> rfl

theorem bdApply_a (kind : DespillKind) (fb mb : ℚ) (medR medG medB : ℕ) (p : Pixel) :
    (bdApply kind fb mb medR medG medB p).a = p.a := by
  simp only [bdApply]
  split
  · exact bdCorrect_a _ _ _ _ _ _
  · rw [bdBlend_a, bdCorrect_a]

theorem bdStep_ne (kind : DespillKind) (fb mb : ℚ) (w h : ℕ)
    (b : ℕ → ℕ → Pixel) (c : ℕ × ℕ) (u v : ℕ) (hne : ¬(u = c.1 ∧ v = c.2)) :
    bdStep kind fb mb w h b c u v = b u v := by
  simp only [bdStep]
  split
  · rfl
  · split
    · simp [setPx, hne]
    · rfl

theorem bdStep_a (kind : DespillKind) (fb mb : ℚ) (w h : ℕ)
    (b : ℕ → ℕ → Pixel) (c : ℕ × ℕ) (u v : ℕ) :
    (bdStep kind fb mb w h b c u v).a = (b u v).a := by
  by_cases hne : u = c.1 ∧ v = c.2
  · obtain ⟨rfl, rfl⟩ := hne
    simp only [bdStep]
    split
    · rfl
    · split
      · simp [setPx, bdApply_a]
      · rfl
  · rw [bdStep_ne _ _ _ _ _ _ _ _ _ hne]

theorem keyPixel_a_le (kind : DespillKind) (kr kg kb : ℕ) (tol : ℚ) (p : Pixel) :
    (keyPixel kind kr kg kb tol p).a ≤ p.a := by
  simp only [keyPixel]
  split
  · exact Nat.zero_le _
  · split
    · cases kind <;> dsimp only <;> first | (split <;> exact le_refl _) | exact le_refl _
    · exact le_refl _

theorem keyPixel_a_eq_or_zero (kind : DespillKind) (kr kg kb : ℕ) (tol : ℚ) (p : Pixel) :
    (keyPixel kind kr kg kb tol p).a = 0 ∨ (keyPixel kind kr kg kb tol p).a = p.a := by
  simp only [keyPixel]
  split
  · exact Or.inl rfl
  · split
    · cases kind <;> dsimp only <;> first | (split <;> exact Or.inr rfl) | exact Or.inr rfl
    · exact Or.inr rfl

theorem awPixel_a (kind : DespillKind) (isHd : Bool) (coef : ℚ) (p : Pixel) :
    (awPixel kind isHd coef p).a = p.a := by
  simp only [awPixel]
  split
  · rfl
  · cases kind <;> dsimp only <;> first | (split <;> rfl) | rfl

/-! The boundary despill pass never changes alpha, and only ever touches a
pixel that was opaque with a transparent 8-neighbor at stage start; since it
writes no alpha, the neighbor test against the live buffer agrees with the
test against the stage-start snapshot. -/

theorem bd_fold_invariant (kind : DespillKind) (fb mb : ℚ) (w h : ℕ) (A : ℕ → ℕ → ℕ) :
    ∀ (L : List (ℕ × ℕ)) (b : ℕ → ℕ → Pixel), (∀ u v, (b u v).a = A u v) →
      (∀ u v, (L.foldl (bdStep kind fb mb w h) b u v).a = A u v) ∧
      (∀ u v, ¬(A u v ≠ 0 ∧ hasTransparentNeighbor A w h u v) →
        L.foldl (bdStep kind fb mb w h) b u v = b u v) := by
  intro L
  induction L with
  | nil => intro b hb; exact ⟨hb, fun _ _ _ => rfl⟩
  | cons c L ih =>
      intro b hb
      have hA : (fun u v => (b u v).a) = A := funext fun u => funext fun v => hb u v
      have hb' : ∀ u v, (bdStep kind fb mb w h b c u v).a = A u v := fun u v => by
        rw [bdStep_a]; exact hb u v
      obtain ⟨ih1, ih2⟩ := ih (bdStep kind fb mb w h b c) hb'
      refine ⟨ih1, fun u v hg => ?_⟩
      rw [List.foldl_cons] at *
      rw [ih2 u v hg]
      by_cases hne : u = c.1 ∧ v = c.2
      · obtain ⟨rfl, rfl⟩ := hne
        simp only [bdStep]
        split
        · rfl
        · split
          · rename_i h0 hnb
            exact absurd ⟨fun h => h0 ((hb c.1 c.2).trans h), by rwa [hA] at hnb⟩ hg
          · rfl
      · exact bdStep_ne _ _ _ _ _ _ _ _ _ hne

theorem boundaryDespill_a (kind : DespillKind) (fb mb : ℚ) (img : Image) (u v : ℕ) :
    ((boundaryDespill kind fb mb img).px u v).a = (img.px u v).a :=
  (bd_fold_invariant kind fb mb img.width img.height (fun x y => (img.px x y).a)
    (coords img.width img.height) img.px fun _ _ => rfl).1 u v

theorem boundaryDespill_untouched (kind : DespillKind) (fb mb : ℚ) (img : Image) (u v : ℕ)
    (hg : ¬((img.px u v).a ≠ 0 ∧
      hasTransparentNeighbor (fun x y => (img.px x y).a) img.width img.height u v)) :
    (boundaryDespill kind fb mb img).px u v = img.px u v :=
  (bd_fold_invariant kind fb mb img.width img.height (fun x y => (img.px x y).a)
    (coords img.width img.height) img.px fun _ _ => rfl).2 u v hg

/-! Correctness of the exact square-root rounding helpers over the reals. -/

theorem leMulSqrt_iff (c β q : ℚ) (hq : 0 ≤ q) :
    leMulSqrt c β q = true ↔ (c : ℝ) ≤ (β : ℝ) * Real.sqrt q := by
  have hqR : (0 : ℝ) ≤ (q : ℝ) := by exact_mod_cast hq
  have hsq : 0 ≤ Real.sqrt q := Real.sqrt_nonneg _
  unfold leMulSqrt
  by_cases hβ : (0 : ℚ) ≤ β
  · have hβR : (0 : ℝ) ≤ (β : ℝ) := by exact_mod_cast hβ
    rw [if_pos hβ]
    by_cases hc : c ≤ 0
    · have hcR : (c : ℝ) ≤ 0 := by exact_mod_cast hc
      rw [if_pos hc]
      exact ⟨fun _ => hcR.trans (mul_nonneg hβR hsq), fun _ => rfl⟩
    · rw [if_neg hc]
      have hcR : (0 : ℝ) < c := by exact_mod_cast not_le.1 hc
      constructor
      · intro h
        have h2 : (c : ℝ) ^ 2 ≤ (β : ℝ) ^ 2 * q := by exact_mod_cast of_decide_eq_true h
        have h3 : (c : ℝ) ≤ Real.sqrt ((β : ℝ) ^ 2 * q) :=
          (Real.le_sqrt hcR.le (by positivity)).2 h2
        rwa [Real.sqrt_mul (sq_nonneg _) _, Real.sqrt_sq hβR] at h3
      · intro h
        have h2 : (c : ℝ) ^ 2 ≤ ((β : ℝ) * Real.sqrt q) ^ 2 := pow_le_pow_left hcR.le h 2
        rw [mul_pow, Real.sq_sqrt hqR] at h2
        exact decide_eq_true (by exact_mod_cast h2)
  · rw [if_neg hβ]
    have hβR : (β : ℝ) < 0 := by exact_mod_cast not_le.1 hβ
    by_cases hc : 0 < c
    · rw [if_pos hc]
      have hcR : (0 : ℝ) < c := by exact_mod_cast hc
      have hlt : (β : ℝ) * Real.sqrt q < c :=
        lt_of_le_of_lt (mul_nonpos_of_nonpos_of_nonneg hβR.le hsq) hcR
      exact ⟨fun hf => absurd hf (by simp), fun hle => absurd hle (not_le.2 hlt)⟩
    · rw [if_neg hc]
      have hcR : (c : ℝ) ≤ 0 := by exact_mod_cast not_lt.1 hc
      constructor
      · intro h
        have h2 : ((β : ℝ)) ^ 2 * q ≤ (c : ℝ) ^ 2 := by exact_mod_cast of_decide_eq_true h
        have h3 : Real.sqrt ((β : ℝ) ^ 2 * q) ≤ -c :=
          (Real.sqrt_le_left (by linarith)).2 (by rw [neg_sq]; exact h2)
        rw [Real.sqrt_mul (sq_nonneg _) _, Real.sqrt_sq_eq_abs, abs_of_neg hβR] at h3
        linarith
      · intro h
        have h3 : -((β : ℝ) * Real.sqrt q) ≤ -c := by linarith
        have h4 : (-((β : ℝ) * Real.sqrt q)) ^ 2 ≤ (-(c : ℝ)) ^ 2 :=
          pow_le_pow_left (by nlinarith [mul_nonpos_of_nonpos_of_nonneg hβR.le hsq]) h3 2
        rw [neg_sq, neg_sq, mul_pow, Real.sq_sqrt hqR] at h4
        exact decide_eq_true (show β ^ 2 * q ≤ c ^ 2 by exact_mod_cast h4)

theorem jsRoundSqrt_eq (α β q : ℚ) (hq : 0 ≤ q) :
    jsRoundSqrt α β q = ⌊(α : ℝ) + 1/2 + (β : ℝ) * Real.sqrt q⌋ := by
  have hqR : (0 : ℝ) ≤ (q : ℝ) := by exact_mod_cast hq
  simp only [jsRoundSqrt, natSqrt_eq]
  set p := sqrtPrec β with hp
  set s := Nat.sqrt ⌊q * (p : ℚ) ^ 2⌋.toNat with hs
  have hppos : 0 < p := Nat.mul_pos (by norm_num) (Nat.succ_pos _)
  have hpQ : (0 : ℚ) < (p : ℚ) := by exact_mod_cast hppos
  have hpR : (0 : ℝ) < (p : ℝ) := by exact_mod_cast hppos
  have hflnn : (0 : ℤ) ≤ ⌊q * (p : ℚ) ^ 2⌋ := Int.floor_nonneg.2 (by positivity)
  have hmQ : ((⌊q * (p : ℚ) ^ 2⌋.toNat : ℕ) : ℚ) = ((⌊q * (p : ℚ) ^ 2⌋ : ℤ) : ℚ) := by
    exact_mod_cast congrArg (fun z : ℤ => (z : ℚ)) (Int.toNat_of_nonneg hflnn)
  have hlb : (s : ℝ) ≤ Real.sqrt q * p := by
    have h1 : (s : ℝ) ≤ Real.sqrt (⌊q * (p : ℚ) ^ 2⌋.toNat : ℕ) := Real.nat_sqrt_le_real_sqrt
    have h2 : ((⌊q * (p : ℚ) ^ 2⌋.toNat : ℕ) : ℝ) ≤ (q : ℝ) * (p : ℝ) ^ 2 := by
      have h2a : ((⌊q * (p : ℚ) ^ 2⌋.toNat : ℕ) : ℚ) ≤ q * (p : ℚ) ^ 2 := by
        rw [hmQ]; exact Int.floor_le _
      have h2b := (Rat.cast_le (K := ℝ)).2 h2a
      push_cast at h2b ⊢
      exact h2b
    have h3 := Real.sqrt_le_sqrt h2
    have h4 : Real.sqrt ((q : ℝ) * (p : ℝ) ^ 2) = Real.sqrt q * p := by
      rw [Real.sqrt_mul hqR, Real.sqrt_sq hpR.le]
    rw [h4] at h3
    exact le_trans h1 h3
  have hub : Real.sqrt q * p < (s : ℝ) + 1 := by
    have h1 : (q : ℝ) * (p : ℝ) ^ 2 < ((⌊q * (p : ℚ) ^ 2⌋.toNat : ℕ) : ℝ) + 1 := by
      have h1a : q * (p : ℚ) ^ 2 < ((⌊q * (p : ℚ) ^ 2⌋.toNat : ℕ) : ℚ) + 1 := by
        rw [hmQ]; exact Int.lt_floor_add_one (q * (p : ℚ) ^ 2)
      have h1b := (Rat.cast_lt (K := ℝ)).2 h1a
      push_cast at h1b ⊢
      exact h1b
    have h2 : ((⌊q * (p : ℚ) ^ 2⌋.toNat : ℕ) : ℝ) + 1 ≤ ((s : ℝ) + 1) ^ 2 := by
      have h2a : ⌊q * (p : ℚ) ^ 2⌋.toNat + 1 ≤ (s + 1) ^ 2 := Nat.lt_succ_sqrt' _
      exact_mod_cast h2a
    have h3 : Real.sqrt ((q : ℝ) * (p : ℝ) ^ 2) < (s : ℝ) + 1 := by
      rw [Real.sqrt_lt' (by positivity)]
      exact lt_of_lt_of_le h1 h2
    rwa [Real.sqrt_mul hqR, Real.sqrt_sq hpR.le] at h3
  have hspR : (s : ℝ) / (p : ℝ) ≤ Real.sqrt q := by
    rw [div_le_iff hpR]; exact hlb
  have hsppR : Real.sqrt q < ((s : ℝ) + 1) / (p : ℝ) := by
    rw [lt_div_iff hpR]; exact hub
  have hhalfQ : |β| ≤ 1/2 * (p : ℚ) := by
    have h1 : |β| ≤ ((⌈|β|⌉.toNat : ℤ) : ℚ) := by
      rw [Int.toNat_of_nonneg (Int.ceil_nonneg (abs_nonneg β))]
      exact Int.le_ceil _
    have h2 : ((p : ℕ) : ℚ) = 2 * ((⌈|β|⌉.toNat : ℚ) + 1) := by
      rw [hp]; unfold sqrtPrec; push_cast; ring
    rw [h2]; push_cast at h1 ⊢; linarith
  have hhalfR : |(β : ℝ)| ≤ 1/2 * (p : ℝ) := by
    have := (Rat.cast_le (K := ℝ)).2 hhalfQ
    push_cast at this ⊢
    exact this
  set x : ℝ := (α : ℝ) + 1/2 + (β : ℝ) * Real.sqrt q with hx
  have key : ∀ lq : ℚ, (lq : ℝ) ≤ x → x ≤ (lq : ℝ) + 1 →
      (if leMulSqrt ((⌊lq⌋ : ℚ) + 1 - (α + 1/2)) β q then ⌊lq⌋ + 1 else ⌊lq⌋) = ⌊x⌋ := by
    intro lq hL hU
    have hfc : (⌊((lq : ℝ))⌋ : ℤ) = ⌊lq⌋ := Rat.floor_cast lq
    have h1 : ⌊lq⌋ ≤ ⌊x⌋ := by rw [← hfc]; exact Int.floor_mono hL
    have h2 : ⌊x⌋ ≤ ⌊lq⌋ + 1 := by
      have h2a : ⌊x⌋ ≤ ⌊(lq : ℝ) + 1⌋ := Int.floor_mono hU
      rwa [Int.floor_add_one, hfc] at h2a
    have hiff : (leMulSqrt ((⌊lq⌋ : ℚ) + 1 - (α + 1/2)) β q = true) ↔ ((⌊lq⌋ : ℝ) + 1 ≤ x) := by
      rw [leMulSqrt_iff _ _ _ hq, hx]
      push_cast
      constructor <;> intro h <;> linarith
    by_cases hcond : leMulSqrt ((⌊lq⌋ : ℚ) + 1 - (α + 1/2)) β q = true
    · rw [if_pos hcond]
      have h3 : ⌊lq⌋ + 1 ≤ ⌊x⌋ := Int.le_floor.2 (by push_cast; linarith [hiff.1 hcond])
      omega
    · rw [if_neg hcond]
      have hxlt : x < (⌊lq⌋ : ℝ) + 1 := by
        by_contra hcon
        push_neg at hcon
        exact hcond (hiff.2 hcon)
      have h4 : ⌊x⌋ < ⌊lq⌋ + 1 := Int.floor_lt.2 (by push_cast; exact hxlt)
      omega
  by_cases hβ : (0 : ℚ) ≤ β
  · rw [if_pos hβ]
    have hβR : (0 : ℝ) ≤ (β : ℝ) := by exact_mod_cast hβ
    have hL : ((α + 1/2 + β * ((s : ℚ) / p) : ℚ) : ℝ) ≤ x := by
      rw [hx]; push_cast
      have hmul := mul_le_mul_of_nonneg_left hspR hβR
      linarith
    have hU : x ≤ ((α + 1/2 + β * ((s : ℚ) / p) : ℚ) : ℝ) + 1 := by
      rw [hx]; push_cast
      have hq1 : Real.sqrt q ≤ (s : ℝ) / p + 1 / p := by
        have hring : ((s : ℝ) + 1) / p = (s : ℝ) / p + 1 / p := by ring
        rw [hring] at hsppR
        linarith
      have hmul := mul_le_mul_of_nonneg_left hq1 hβR
      rw [mul_add] at hmul
      have habs : (β : ℝ) * (1 / p) ≤ 1/2 := by
        have hle : (β : ℝ) ≤ |(β : ℝ)| := le_abs_self _
        have h12 : (β : ℝ) * (1 / p) ≤ (1/2 * (p : ℝ)) * (1 / p) := by
          apply mul_le_mul_of_nonneg_right (le_trans hle hhalfR)
          positivity
        have hpe : (1/2 * (p : ℝ)) * (1 / p) = 1/2 := by
          field_simp
          ring
        rw [hpe] at h12
        exact h12
      linarith
    exact key _ hL hU
  · rw [if_neg hβ]
    have hβR : (β : ℝ) ≤ 0 := by exact_mod_cast le_of_not_le hβ
    have hL : ((α + 1/2 + β * (((s : ℚ) + 1) / p) : ℚ) : ℝ) ≤ x := by
      rw [hx]; push_cast
      have hmul := mul_le_mul_of_nonpos_left hsppR.le hβR
      linarith
    have hU : x ≤ ((α + 1/2 + β * (((s : ℚ) + 1) / p) : ℚ) : ℝ) + 1 := by
      rw [hx]; push_cast
      have hq1 : ((s : ℝ) + 1) / p - 1 / p ≤ Real.sqrt q := by
        have hring : ((s : ℝ) + 1) / p - 1 / p = (s : ℝ) / p := by ring
        rw [hring]; exact hspR
      have hmul := mul_le_mul_of_nonpos_left hq1 hβR
      rw [mul_sub] at hmul
      have habs : -((β : ℝ) * (1 / p)) ≤ 1/2 := by
        have hle : -(β : ℝ) ≤ |(β : ℝ)| := neg_le_abs _
        have h12 : -(β : ℝ) * (1 / p) ≤ (1/2 * (p : ℝ)) * (1 / p) := by
          apply mul_le_mul_of_nonneg_right (le_trans hle hhalfR)
          positivity
        have hpe : (1/2 * (p : ℝ)) * (1 / p) = 1/2 := by
          field_simp
          ring
        rw [neg_mul] at h12
        rw [hpe] at h12
        exact h12
      linarith
    exact key _ hL hU

/-- The despill rounding helper computes exactly the source's
`Math.round(base + spillStrength * c)` with the spill strength written as in
the spec: `1 - (d - rgbThreshold) / (despillThreshold - rgbThreshold)`. -/
theorem spillRound_eq (tol dsq base c : ℚ) (htol : 0 < tol) (hd : 0 ≤ dsq) :
    spillRound tol dsq base c =
      ⌊(base : ℝ) +
        (1 - (Real.sqrt dsq - tol * Real.sqrt 2) /
          ((tol : ℝ) * Real.sqrt 2 * 1.8 - tol * Real.sqrt 2)) * c + 1/2⌋ := by
  have hdR : (0 : ℝ) ≤ (dsq : ℝ) := by exact_mod_cast hd
  have htolR : (0 : ℝ) < (tol : ℝ) := by exact_mod_cast htol
  have hs2 : (0 : ℝ) < Real.sqrt 2 := Real.sqrt_pos.2 (by norm_num)
  have hs2sq : Real.sqrt 2 ^ 2 = 2 := Real.sq_sqrt (by norm_num)
  unfold spillRound
  rw [jsRoundSqrt_eq _ _ _ (by positivity)]
  congr 1
  have hdiv : Real.sqrt ((dsq : ℚ) / 2 : ℚ) = Real.sqrt dsq / Real.sqrt 2 := by
    rw [show (((dsq : ℚ) / 2 : ℚ) : ℝ) = (dsq : ℝ) / 2 by push_cast; ring]
    exact Real.sqrt_div hdR 2
  rw [hdiv]
  have hstr : (1 - (Real.sqrt dsq - (tol : ℝ) * Real.sqrt 2) /
      ((tol : ℝ) * Real.sqrt 2 * 1.8 - tol * Real.sqrt 2)) =
      9/4 - 5 / (4 * (tol : ℝ)) * (Real.sqrt dsq / Real.sqrt 2) := by
    have h08 : (tol : ℝ) * Real.sqrt 2 * 1.8 - tol * Real.sqrt 2 =
        (4/5) * (tol * Real.sqrt 2) := by ring
    rw [h08]
    field_simp
    ring_nf
  rw [hstr]
  push_cast
  ring

theorem distSq_nonneg (kr kg kb : ℕ) (p : Pixel) : 0 ≤ distSq kr kg kb p := by
  unfold distSq
  have h : (0 : ℤ) ≤ ((p.r : ℤ) - kr) ^ 2 + ((p.g : ℤ) - kg) ^ 2 + ((p.b : ℤ) - kb) ^ 2 := by
    positivity
  exact_mod_cast h

theorem clamp255_max0 (n : ℤ) : clamp255 (max 0 n) = clamp255 n := by
  unfold clamp255
  rcases le_total n 0 with h | h
  · rw [max_eq_left h]
    rcases le_total (0 : ℤ) 255 with _ | _ <;> omega
  · rw [max_eq_right h]

theorem clamp255_byte (n : ℕ) (h : n ≤ 255) : clamp255 (n : ℤ) = n := by
  unfold clamp255
  omega

/-- The source's comparison `Math.sqrt dsq ≤ tol * Math.SQRT2` is the squared
comparison the embedding performs. -/
theorem sqrt_zone_low_iff (tol dsq : ℚ) (htol : 0 ≤ tol) (hd : 0 ≤ dsq) :
    Real.sqrt dsq ≤ (tol : ℝ) * Real.sqrt 2 ↔ dsq ≤ 2 * tol ^ 2 := by
  have hs2sq : Real.sqrt 2 ^ 2 = 2 := Real.sq_sqrt (by norm_num)
  have htolR : (0 : ℝ) ≤ (tol : ℝ) := by exact_mod_cast htol
  rw [Real.sqrt_le_left (by positivity)]
  have hsq : ((tol : ℝ) * Real.sqrt 2) ^ 2 = ((2 * tol ^ 2 : ℚ) : ℝ) := by
    rw [mul_pow, hs2sq]; push_cast; ring
  rw [hsq]
  exact_mod_cast Iff.rfl

/-- The source's comparison `Math.sqrt dsq ≤ tol * Math.SQRT2 * 1.8` is the
squared comparison the embedding performs. -/
theorem sqrt_zone_high_iff (tol dsq : ℚ) (htol : 0 ≤ tol) (hd : 0 ≤ dsq) :
    Real.sqrt dsq ≤ (tol : ℝ) * Real.sqrt 2 * 1.8 ↔ dsq ≤ 162/25 * tol ^ 2 := by
  have hs2sq : Real.sqrt 2 ^ 2 = 2 := Real.sq_sqrt (by norm_num)
  have htolR : (0 : ℝ) ≤ (tol : ℝ) := by exact_mod_cast htol
  rw [Real.sqrt_le_left (by positivity)]
  have hsq : ((tol : ℝ) * Real.sqrt 2 * 1.8) ^ 2 = ((162/25 * tol ^ 2 : ℚ) : ℝ) := by
    rw [mul_pow, mul_pow, hs2sq]; push_cast; ring
  rw [hsq]
  exact_mod_cast Iff.rfl

/-- C2: in the AlphaKeyer sweep with `rgbThreshold = tolerance × √2` and
`despillThreshold = rgbThreshold × 1.8`, every pixel whose Euclidean RGB
distance to the key color is at most `rgbThreshold` gets alpha 0 with its
color channels untouched; every pixel with distance in
`(rgbThreshold, despillThreshold]` keeps its alpha and receives the
hue-family correction scaled by
`spillStrength = clamp(1 - (distance - rgbThreshold) / (despillThreshold - rgbThreshold), 0, 1)`;
every pixel with distance above `despillThreshold` is left entirely
unchanged.  The first conjunct records that the source's real-valued
threshold tests coincide with the embedding's squared-distance tests. -/
theorem alphaKeyer_zone_trichotomy (kind : DespillKind) (kr kg kb : ℕ) (tol : ℚ)
    (img : Image) (x y : ℕ) (hx : x < img.width) (hy : y < img.height) (htol : 0 ≤ tol) :
    ∀ p res : Pixel, ∀ dsq : ℚ, ∀ d rgbT despT s : ℝ,
      p = img.px x y →
      res = (applyKeyer kind kr kg kb tol img).px x y →
      dsq = distSq kr kg kb p →
      d = Real.sqrt dsq →
      rgbT = (tol : ℝ) * Real.sqrt 2 →
      despT = rgbT * 1.8 →
      s = min 1 (max 0 (1 - (d - rgbT) / (despT - rgbT))) →
      p.r ≤ 255 → p.g ≤ 255 → p.b ≤ 255 →
      ((d ≤ rgbT ↔ dsq ≤ 2 * tol ^ 2) ∧ (d ≤ despT ↔ dsq ≤ 162/25 * tol ^ 2)) ∧
      (d ≤ rgbT → res = { p with a := 0 }) ∧
      (rgbT < d → d ≤ despT →
        res.a = p.a ∧
        (match kind with
         | .magenta =>
             res.r = clamp255 ⌊(p.r : ℝ) - s * max 0 ((p.r : ℝ) - (p.g : ℝ)) + 1/2⌋ ∧
             res.g = p.g ∧
             res.b = clamp255 ⌊(p.b : ℝ) - s * max 0 ((p.b : ℝ) - (p.g : ℝ)) + 1/2⌋
         | .green =>
             res.g = clamp255
               ⌊(p.g : ℝ) - s * max 0 ((p.g : ℝ) - max (p.r : ℝ) (p.b : ℝ)) + 1/2⌋ ∧
             (10 < (p.g : ℝ) - max (p.r : ℝ) (p.b : ℝ) →
               res.r = clamp255
                 ⌊(p.r : ℝ) - s * (3/10) * ((p.g : ℝ) - max (p.r : ℝ) (p.b : ℝ)) + 1/2⌋ ∧
               res.b = clamp255
                 ⌊(p.b : ℝ) - s * (3/10) * ((p.g : ℝ) - max (p.r : ℝ) (p.b : ℝ)) + 1/2⌋) ∧
             ((p.g : ℝ) - max (p.r : ℝ) (p.b : ℝ) ≤ 10 → res.r = p.r ∧ res.b = p.b)
         | .blue =>
             res.b = clamp255
               ⌊(p.b : ℝ) - s * max 0 ((p.b : ℝ) - max (p.r : ℝ) (p.g : ℝ)) + 1/2⌋ ∧
             res.r = p.r ∧ res.g = p.g
         | .generic =>
             res.r = clamp255 ⌊(p.r : ℝ) +
               s * ((jsRound (((p.r : ℚ) + (p.g : ℚ) + (p.b : ℚ)) / 3) : ℝ) - (p.r : ℝ)) *
                 (1/2) + 1/2⌋ ∧
             res.g = clamp255 ⌊(p.g : ℝ) +
               s * ((jsRound (((p.r : ℚ) + (p.g : ℚ) + (p.b : ℚ)) / 3) : ℝ) - (p.g : ℝ)) *
                 (1/2) + 1/2⌋ ∧
             res.b = clamp255 ⌊(p.b : ℝ) +
               s * ((jsRound (((p.r : ℚ) + (p.g : ℚ) + (p.b : ℚ)) / 3) : ℝ) - (p.b : ℝ)) *
                 (1/2) + 1/2⌋)) ∧
      (despT < d → res = p) := by
  intro p res dsq d rgbT despT s hp hres hdsq hd hrgbT hdespT hs hr hg hb
  subst hp hres hdsq hd hrgbT hdespT hs
  have hd0 : 0 ≤ distSq kr kg kb (img.px x y) := distSq_nonneg kr kg kb _
  have iff1 := sqrt_zone_low_iff tol (distSq kr kg kb (img.px x y)) htol hd0
  have iff2 := sqrt_zone_high_iff tol (distSq kr kg kb (img.px x y)) htol hd0
  have hkey : (applyKeyer kind kr kg kb tol img).px x y =
      keyPixel kind kr kg kb tol (img.px x y) := by
    simp only [applyKeyer]
    rw [if_pos ⟨hx, hy⟩]
  refine ⟨⟨iff1, iff2⟩, ?_, ?_, ?_⟩
  · intro hzone
    rw [hkey]
    simp only [keyPixel]
    rw [if_pos (iff1.1 hzone)]
  · intro h1 h2
    have hq1 : ¬distSq kr kg kb (img.px x y) ≤ 2 * tol ^ 2 := by
      rw [← iff1]; exact not_le.2 h1
    have hq2 : distSq kr kg kb (img.px x y) ≤ 162/25 * tol ^ 2 := by
      rw [← iff2]; exact h2
    have htolpos : 0 < tol := by
      rcases lt_or_eq_of_le htol with h | h
      · exact h
      · exfalso; rw [← h] at hq1 hq2; simp at hq1 hq2; exact absurd hq2 (not_le.2 hq1)
    have htolR : (0 : ℝ) < (tol : ℝ) := by exact_mod_cast htolpos
    have hs2 : (0 : ℝ) < Real.sqrt 2 := Real.sqrt_pos.2 (by norm_num)
    have hΔ : (0 : ℝ) < (tol : ℝ) * Real.sqrt 2 * 1.8 - (tol : ℝ) * Real.sqrt 2 := by
      nlinarith
    have hsraw : min 1 (max 0 (1 - (Real.sqrt (distSq kr kg kb (img.px x y)) -
        (tol : ℝ) * Real.sqrt 2) /
        ((tol : ℝ) * Real.sqrt 2 * 1.8 - (tol : ℝ) * Real.sqrt 2))) =
        1 - (Real.sqrt (distSq kr kg kb (img.px x y)) - (tol : ℝ) * Real.sqrt 2) /
          ((tol : ℝ) * Real.sqrt 2 * 1.8 - (tol : ℝ) * Real.sqrt 2) := by
      have hnum0 : 0 ≤ Real.sqrt (distSq kr kg kb (img.px x y)) - (tol : ℝ) * Real.sqrt 2 :=
        by linarith
      have hle1 : Real.sqrt (distSq kr kg kb (img.px x y)) - (tol : ℝ) * Real.sqrt 2 ≤
          (tol : ℝ) * Real.sqrt 2 * 1.8 - (tol : ℝ) * Real.sqrt 2 := by
        linarith
      have hd1 : (Real.sqrt (distSq kr kg kb (img.px x y)) - (tol : ℝ) * Real.sqrt 2) /
          ((tol : ℝ) * Real.sqrt 2 * 1.8 - (tol : ℝ) * Real.sqrt 2) ≤ 1 :=
        (div_le_one hΔ).2 hle1
      have hd2 : 0 ≤ (Real.sqrt (distSq kr kg kb (img.px x y)) - (tol : ℝ) * Real.sqrt 2) /
          ((tol : ℝ) * Real.sqrt 2 * 1.8 - (tol : ℝ) * Real.sqrt 2) :=
        div_nonneg hnum0 hΔ.le
      rw [max_eq_right (by linarith), min_eq_right (by linarith)]
    rw [hkey]
    simp only [keyPixel]
    rw [if_neg hq1, if_pos hq2]
    rw [hsraw]
    cases kind with
    | magenta =>
        refine ⟨rfl, ?_, clamp255_byte _ hg, ?_⟩ <;>
        · dsimp only
          rw [spillRound_eq _ _ _ _ htolpos hd0]
          congr 1
          push_cast
          ring
    | green =>
        constructor
        · show Pixel.a _ = Pixel.a (img.px x y)
          dsimp only
          split <;> rfl
        refine ⟨?_, ?_, ?_⟩
        · show Pixel.g _ = _
          dsimp only
          have hngoal : clamp255 (spillRound tol (distSq kr kg kb (img.px x y))
              ((img.px x y).g : ℚ)
              (-(max 0 (((img.px x y).g : ℚ) - ((max (img.px x y).r (img.px x y).b : ℕ) : ℚ))))) =
              clamp255 ⌊((img.px x y).g : ℝ) -
                (1 - (Real.sqrt (distSq kr kg kb (img.px x y)) - (tol : ℝ) * Real.sqrt 2) /
                  ((tol : ℝ) * Real.sqrt 2 * 1.8 - (tol : ℝ) * Real.sqrt 2)) *
                max 0 (((img.px x y).g : ℝ) - max ((img.px x y).r : ℝ) ((img.px x y).b : ℝ)) +
                1/2⌋ := by
            rw [spillRound_eq _ _ _ _ htolpos hd0]
            congr 1
            push_cast
            ring
          split <;> exact hngoal
        · intro hcond
          have hz : 10 < ((img.px x y).g : ℤ) - ((max (img.px x y).r (img.px x y).b : ℕ) : ℤ) := by
            have : ((10 : ℝ)) < ((img.px x y).g : ℝ) -
                (((max (img.px x y).r (img.px x y).b : ℕ)) : ℝ) := by
              push_cast
              push_cast at hcond
              linarith
            exact_mod_cast this
          have hguard : (img.px x y).g > (img.px x y).r ∧ (img.px x y).g > (img.px x y).b ∧
              ((img.px x y).g : ℤ) - ((max (img.px x y).r (img.px x y).b : ℕ) : ℤ) > 10 := by
            omega
          show Pixel.r _ = _ ∧ Pixel.b _ = _
          rw [if_pos hguard]
          constructor <;>
          · dsimp only
            rw [clamp255_max0, spillRound_eq _ _ _ _ htolpos hd0]
            congr 1
            push_cast
            ring
        · intro hcond
          have hz : ((img.px x y).g : ℤ) - ((max (img.px x y).r (img.px x y).b : ℕ) : ℤ) ≤ 10 := by
            have : ((img.px x y).g : ℝ) -
                (((max (img.px x y).r (img.px x y).b : ℕ)) : ℝ) ≤ (10 : ℝ) := by
              push_cast
              push_cast at hcond
              linarith
            exact_mod_cast this
          have hguard : ¬((img.px x y).g > (img.px x y).r ∧ (img.px x y).g > (img.px x y).b ∧
              ((img.px x y).g : ℤ) - ((max (img.px x y).r (img.px x y).b : ℕ) : ℤ) > 10) := by
            omega
          show Pixel.r _ = _ ∧ Pixel.b _ = _
          rw [if_neg hguard]
          exact ⟨clamp255_byte _ hr, clamp255_byte _ hb⟩
    | blue =>
        refine ⟨rfl, ?_, clamp255_byte _ hr, clamp255_byte _ hg⟩
        dsimp only
        rw [spillRound_eq _ _ _ _ htolpos hd0]
        congr 1
        push_cast
        ring
    | generic =>
        refine ⟨rfl, ?_, ?_, ?_⟩ <;>
        · dsimp only
          rw [spillRound_eq _ _ _ _ htolpos hd0]
          congr 1
          push_cast
          ring
  · intro h3
    have hq3 : ¬distSq kr kg kb (img.px x y) ≤ 162/25 * tol ^ 2 := by
      rw [← iff2]; exact not_le.2 h3
    have hq1 : ¬distSq kr kg kb (img.px x y) ≤ 2 * tol ^ 2 := by
      intro hcon
      exact hq3 (le_trans hcon (by nlinarith [sq_nonneg tol]))
    rw [hkey]
    simp only [keyPixel]
    rw [if_neg hq1, if_neg hq3]

/-- Witness for C2 at the spec §8 example: key `#FF00FF`, tolerance 30,
pixel `(255,60,255)` at distance 60 lies in the despill zone, keeps its
alpha, and its R channel receives the magenta correction (concretely, 161). -/
theorem alphaKeyer_zone_trichotomy_witness :
    0 < c2img.width ∧ 0 < c2img.height ∧ (0 : ℚ) ≤ 30 ∧
    ((applyKeyer .magenta 255 0 255 30 c2img).px 0 0).a = 255 ∧
    ((applyKeyer .magenta 255 0 255 30 c2img).px 0 0).r =
      clamp255 ⌊(255 : ℝ) -
        min 1 (max 0 (1 - (Real.sqrt ((3600 : ℚ)) - (30 : ℚ) * Real.sqrt 2) /
          (((30 : ℚ) : ℝ) * Real.sqrt 2 * 1.8 - ((30 : ℚ) : ℝ) * Real.sqrt 2))) *
        max 0 ((255 : ℝ) - (60 : ℝ)) + 1/2⌋ ∧
    ((applyKeyer .magenta 255 0 255 30 c2img).px 0 0).r = 161 ∧
    ((applyKeyer .magenta 255 0 255 30 c2img).px 0 0).b = 161 ∧
    ((applyKeyer .magenta 255 0 255 30 c2img).px 0 0).g = 60 := by
  have hsq : Real.sqrt ((3600 : ℚ)) = 60 := by
    rw [show (((3600 : ℚ)) : ℝ) = 60 ^ 2 by norm_num]
    exact Real.sqrt_sq (by norm_num)
  have h2lt : Real.sqrt 2 < 2 := by
    rw [Real.sqrt_lt' (by norm_num)]; norm_num
  have h2gt : (10 : ℝ) / 9 ≤ Real.sqrt 2 := by
    rw [Real.le_sqrt (by norm_num) (by norm_num)]; norm_num
  have hmain := alphaKeyer_zone_trichotomy .magenta 255 0 255 30 c2img 0 0
    (by decide) (by decide) (by norm_num)
    (c2img.px 0 0) ((applyKeyer .magenta 255 0 255 30 c2img).px 0 0) 3600
    (Real.sqrt ((3600 : ℚ))) (((30 : ℚ) : ℝ) * Real.sqrt 2)
    (((30 : ℚ) : ℝ) * Real.sqrt 2 * 1.8)
    (min 1 (max 0 (1 - (Real.sqrt ((3600 : ℚ)) - (30 : ℚ) * Real.sqrt 2) /
      (((30 : ℚ) : ℝ) * Real.sqrt 2 * 1.8 - ((30 : ℚ) : ℝ) * Real.sqrt 2))))
    rfl rfl (by decide) rfl rfl rfl rfl (by decide) (by decide) (by decide)
  have hlow : ((30 : ℚ) : ℝ) * Real.sqrt 2 < Real.sqrt ((3600 : ℚ)) := by
    rw [hsq]; push_cast; nlinarith
  have hhigh : Real.sqrt ((3600 : ℚ)) ≤ ((30 : ℚ) : ℝ) * Real.sqrt 2 * 1.8 := by
    rw [hsq]; push_cast; nlinarith
  have hdesp := hmain.2.2.1 hlow hhigh
  refine ⟨by decide, by decide, by norm_num, hdesp.1, ?_,
    by with_unfolding_all rfl, by with_unfolding_all rfl, by with_unfolding_all rfl⟩
  have := hdesp.2.1
  convert this using 4 <;> norm_num

/-- All record fields equal makes the update `{ p with a := 0 }` a no-op on an
already transparent pixel. -/
theorem pixel_set_a_self (p : Pixel) (h : p.a = 0) : { p with a := 0 } = p := by
  cases p
  simp_all

/-- C9 (amended): re-running the AlphaKeyer sweep is the identity on an
image in which every in-bounds pixel already has alpha 0 AND lies within
`rgbThreshold` of the key color (which is the state a full keyer pass that
keyed every pixel leaves behind).  Alpha 0 alone does not suffice: the sweep
never reads alpha, so it still despills transparent pixels that fall in the
despill zone (see the counterexample). -/
theorem alphaKeyer_identity_on_keyed_image (kind : DespillKind) (kr kg kb : ℕ)
    (tol : ℚ) (img : Image)
    (h : ∀ u v, u < img.width → v < img.height →
      (img.px u v).a = 0 ∧ distSq kr kg kb (img.px u v) ≤ 2 * tol ^ 2) :
    ∀ u v, (applyKeyer kind kr kg kb tol img).px u v = img.px u v := by
  intro u v
  simp only [applyKeyer]
  split
  · rename_i hin
    obtain ⟨h0, hdist⟩ := h u v hin.1 hin.2
    simp only [keyPixel]
    rw [if_pos hdist]
    exact pixel_set_a_self _ h0
  · rfl

/-- Counterexample to C9 as stated: an image whose every pixel already has
alpha 0 on which a keyer run is not the identity — the sweep ignores alpha
and despills the transparent pixel `(215,40,255)` to `(113,40,130)`. -/
theorem alphaKeyer_not_identity_on_alpha0 :
    (∀ u v, (c9img.px u v).a = 0) ∧
    (applyKeyer .magenta 255 0 255 30 c9img).px 0 0 ≠ c9img.px 0 0 ∧
    (applyKeyer .magenta 255 0 255 30 c9img).px 0 0 = ⟨113, 40, 130, 0⟩ := by
  have hval : (applyKeyer .magenta 255 0 255 30 c9img).px 0 0 = ⟨113, 40, 130, 0⟩ := by
    with_unfolding_all rfl
  refine ⟨fun _ _ => rfl, ?_, hval⟩
  rw [hval]
  decide

/-- Witness for the amended C9 on a fully keyed 1×1 image. -/
theorem alphaKeyer_identity_on_keyed_image_witness :
    (∀ u v, u < c9wimg.width → v < c9wimg.height →
      (c9wimg.px u v).a = 0 ∧ distSq 255 0 255 (c9wimg.px u v) ≤ 2 * (30 : ℚ) ^ 2) ∧
    (applyKeyer .magenta 255 0 255 30 c9wimg).px 0 0 = c9wimg.px 0 0 :=
  ⟨fun _ _ _ _ => ⟨rfl, by
      show distSq 255 0 255 ⟨255, 0, 255, 0⟩ ≤ 2 * (30 : ℚ) ^ 2
      with_unfolding_all decide⟩,
   alphaKeyer_identity_on_keyed_image .magenta 255 0 255 30 c9wimg
     (fun _ _ _ _ => ⟨rfl, by
        show distSq 255 0 255 ⟨255, 0, 255, 0⟩ ≤ 2 * (30 : ℚ) ^ 2
        with_unfolding_all decide⟩) 0 0⟩

/-- C1 counterexample: on `cimg4` (generic family, crisp strengths) the
in-place boundary despill pass and the snapshot-reference pass disagree at
pixel (2,0): the in-place sweep reads the already-corrected RGB of pixel
(1,0) in its 3×3 median (124 instead of the stage-start 100), producing 182
instead of 176. -/
theorem boundaryDespill_ne_snapshotRef :
    (boundaryDespill .generic 0.4 0 cimg4).px 1 0 = ⟨124, 124, 124, 255⟩ ∧
    (boundaryDespill .generic 0.4 0 cimg4).px 2 0 = ⟨182, 182, 182, 255⟩ ∧
    (boundaryDespillSnapshotRef .generic 0.4 0 cimg4).px 2 0 = ⟨176, 176, 176, 255⟩ ∧
    (boundaryDespill .generic 0.4 0 cimg4).px 2 0 ≠
      (boundaryDespillSnapshotRef .generic 0.4 0 cimg4).px 2 0 := by
  have h1 : (boundaryDespill .generic 0.4 0 cimg4).px 1 0 = ⟨124, 124, 124, 255⟩ := by
    with_unfolding_all rfl
  have h2 : (boundaryDespill .generic 0.4 0 cimg4).px 2 0 = ⟨182, 182, 182, 255⟩ := by
    with_unfolding_all rfl
  have h3 : (boundaryDespillSnapshotRef .generic 0.4 0 cimg4).px 2 0 = ⟨176, 176, 176, 255⟩ := by
    with_unfolding_all rfl
  refine ⟨h1, h2, h3, ?_⟩
  rw [h2, h3]
  decide

/-- C1 (amended): the boundary despill pass never writes alpha, so the alpha
values that drive its transparent-neighbor test — although read from the
live buffer — agree with the stage-start snapshot: every pixel that fails
the snapshot guard (opaque with a transparent 8-connected neighbor) is left
entirely untouched, independently of iteration order, and both passes
preserve the full alpha channel.  The 3×3 RGB medians, however, are read
from the live buffer, so the in-place sweep is not equivalent to the
snapshot-reference pass (see `boundaryDespill_ne_snapshotRef`). -/
theorem boundaryDespill_alpha_and_selection (kind : DespillKind) (fb mb : ℚ) (img : Image) :
    (∀ u v, ((boundaryDespill kind fb mb img).px u v).a = (img.px u v).a) ∧
    (∀ u v, ¬((img.px u v).a ≠ 0 ∧
        hasTransparentNeighbor (fun x y => (img.px x y).a) img.width img.height u v) →
      (boundaryDespill kind fb mb img).px u v = img.px u v) ∧
    (∀ u v, ((boundaryDespillSnapshotRef kind fb mb img).px u v).a = (img.px u v).a) ∧
    (∀ u v, ¬((img.px u v).a ≠ 0 ∧
        hasTransparentNeighbor (fun x y => (img.px x y).a) img.width img.height u v) →
      (boundaryDespillSnapshotRef kind fb mb img).px u v = img.px u v) := by
  refine ⟨boundaryDespill_a kind fb mb img, boundaryDespill_untouched kind fb mb img, ?_, ?_⟩
  · intro u v
    simp only [boundaryDespillSnapshotRef]
    split
    · split
      · rfl
      · split
        · rw [bdApply_a]
        · rfl
    · rfl
  · intro u v hg
    simp only [boundaryDespillSnapshotRef]
    split
    · by_cases h0 : (img.px u v).a = 0
      · rw [if_pos h0]
      · rw [if_neg h0, if_neg fun hnb => hg ⟨h0, hnb⟩]
    · rfl

/-- Witness for the amended C1: on `cimg4`, pixel (3,0) fails the guard (it
is transparent), and the pass preserves alpha at (2,0) and leaves (3,0)
untouched. -/
theorem boundaryDespill_alpha_and_selection_witness :
    ¬((cimg4.px 3 0).a ≠ 0 ∧
      hasTransparentNeighbor (fun x y => (cimg4.px x y).a) cimg4.width cimg4.height 3 0) ∧
    ((boundaryDespill .generic 0.4 0 cimg4).px 2 0).a = (cimg4.px 2 0).a ∧
    (boundaryDespill .generic 0.4 0 cimg4).px 3 0 = cimg4.px 3 0 := by
  have hthm := boundaryDespill_alpha_and_selection .generic 0.4 0 cimg4
  have hg : ¬((cimg4.px 3 0).a ≠ 0 ∧
      hasTransparentNeighbor (fun x y => (cimg4.px x y).a) cimg4.width cimg4.height 3 0) := by
    decide
  exact ⟨hg, hthm.1 2 0, hthm.2.1 3 0 hg⟩

/-- C7: fringe-mode resolution maps explicit crisp and hd through unchanged
and resolves auto to hd exactly when `max(targetWidth, targetHeight) > 128`;
the edge refiner runs only for resolved mode hd, and it sets live alpha to 0
for exactly those pixels that are opaque in the pre-sweep alpha snapshot and
have an in-bounds 8-neighbor transparent in that snapshot, touching nothing
else (in particular no color channel and no pixel cleared merely by a
neighbor cleared in the same sweep). -/
theorem resolveFringe_hdClear_spec :
    (∀ w h, resolveFringeMode .crisp w h = .crisp) ∧
    (∀ w h, resolveFringeMode .hd w h = .hd) ∧
    (∀ w h, resolveFringeMode .auto w h = if 128 < max w h then .hd else .crisp) ∧
    (∀ img, edgeRefine .crisp img = img) ∧
    (∀ img, edgeRefine .hd img = hdBoundaryClear img) ∧
    (∀ img : Image, ∀ x y : ℕ, x < img.width → y < img.height →
      ((hdBoundaryClear img).px x y =
        (if (img.px x y).a ≠ 0 ∧
            hasTransparentNeighbor (fun u v => (img.px u v).a) img.width img.height x y then
          { img.px x y with a := 0 }
        else img.px x y)) ∧
      (((hdBoundaryClear img).px x y).a = 0 ∧ (img.px x y).a ≠ 0 ↔
        (img.px x y).a ≠ 0 ∧
          hasTransparentNeighbor (fun u v => (img.px u v).a) img.width img.height x y)) := by
  refine ⟨fun _ _ => rfl, fun _ _ => rfl, fun _ _ => rfl, fun _ => rfl, fun _ => rfl, ?_⟩
  intro img x y hx hy
  have hpx := hdBoundaryClear_px img x y
  rw [if_pos ⟨hx, hy⟩] at hpx
  refine ⟨hpx, ?_⟩
  rw [hpx]
  constructor
  · rintro ⟨ha0, hne⟩
    refine ⟨hne, ?_⟩
    by_contra hnb
    rw [if_neg fun hc => hnb hc.2] at ha0
    exact hne ha0
  · rintro ⟨hne, hnb⟩
    rw [if_pos ⟨hne, hnb⟩]
    exact ⟨rfl, hne⟩

/-- Witness for C7 on `cimg31` (`[transparent, opaque, opaque]`): resolution
of auto at 64×64 and 256×64, and the clear fires exactly at pixel (1,0) —
pixel (2,0) survives because its only transparent-in-snapshot neighbor is
two cells away. -/
theorem resolveFringe_hdClear_spec_witness :
    0 < cimg31.width ∧ 0 < cimg31.height ∧ 1 < cimg31.width ∧ 2 < cimg31.width ∧
    resolveFringeMode .auto 64 64 = .crisp ∧
    resolveFringeMode .auto 256 64 = .hd ∧
    (hdBoundaryClear cimg31).px 1 0 = ⟨50, 60, 70, 0⟩ ∧
    (hdBoundaryClear cimg31).px 2 0 = ⟨50, 60, 70, 255⟩ := by
  have h1 := (resolveFringe_hdClear_spec.2.2.2.2.2 cimg31 1 0 (by decide) (by decide)).1
  have h2 := (resolveFringe_hdClear_spec.2.2.2.2.2 cimg31 2 0 (by decide) (by decide)).1
  rw [if_pos (by decide)] at h1
  rw [if_neg (by decide)] at h2
  exact ⟨by decide, by decide, by decide, by decide,
    resolveFringe_hdClear_spec.2.2.1 64 64, resolveFringe_hdClear_spec.2.2.1 256 64, h1, h2⟩

/-- The speckle pass's threshold comparison `Math.sqrt dsq ≤ tol * √2 * k`
matches the embedding's squared comparison. -/
theorem sqrt_zone_cleanup_iff (tol dsq k : ℚ) (htol : 0 ≤ tol) (hk : 0 ≤ k) (hd : 0 ≤ dsq) :
    Real.sqrt dsq ≤ (tol : ℝ) * Real.sqrt 2 * k ↔ dsq ≤ 2 * k ^ 2 * tol ^ 2 := by
  have hs2sq : Real.sqrt 2 ^ 2 = 2 := Real.sq_sqrt (by norm_num)
  have htolR : (0 : ℝ) ≤ (tol : ℝ) := by exact_mod_cast htol
  have hkR : (0 : ℝ) ≤ (k : ℝ) := by exact_mod_cast hk
  rw [Real.sqrt_le_left (by positivity)]
  have hsq : ((tol : ℝ) * Real.sqrt 2 * k) ^ 2 = ((2 * k ^ 2 * tol ^ 2 : ℚ) : ℝ) := by
    rw [mul_pow, mul_pow, hs2sq]; push_cast; ring
  rw [hsq]
  exact_mod_cast Iff.rfl

/-- C8: the speckle cleaner works from a snapshot of the buffer: a pixel's
live alpha is set to 0 exactly when it is opaque in the snapshot, at least 6
of its 8 neighbors are transparent in the snapshot (out-of-image neighbors
counting as transparent), and its snapshot color lies within
`rgbThreshold × 2` (`× 3` in hd mode) Euclidean RGB distance of the key
color; nothing else changes.  The first conjunct records that the source's
real-valued threshold test is the embedding's squared comparison. -/
theorem speckleCleanup_spec (kr kg kb : ℕ) (tol : ℚ) (isHd : Bool) (img : Image)
    (x y : ℕ) (hx : x < img.width) (hy : y < img.height) (htol : 0 ≤ tol) :
    (Real.sqrt (distSq kr kg kb (img.px x y)) ≤
        (tol : ℝ) * Real.sqrt 2 * (if isHd then 3 else 2) ↔
      distSq kr kg kb (img.px x y) ≤ (if isHd then 18 else 8) * tol ^ 2) ∧
    ((speckleCleanup kr kg kb tol isHd img).px x y =
      if (img.px x y).a ≠ 0 ∧ 6 ≤ speckleTransCount img.px img.width img.height x y ∧
          distSq kr kg kb (img.px x y) ≤ (if isHd then 18 else 8) * tol ^ 2 then
        { img.px x y with a := 0 }
      else img.px x y) ∧
    (((speckleCleanup kr kg kb tol isHd img).px x y).a = 0 ∧ (img.px x y).a ≠ 0 ↔
      (img.px x y).a ≠ 0 ∧ 6 ≤ speckleTransCount img.px img.width img.height x y ∧
        distSq kr kg kb (img.px x y) ≤ (if isHd then 18 else 8) * tol ^ 2) := by
  have hd0 := distSq_nonneg kr kg kb (img.px x y)
  have hpx := speckleCleanup_px kr kg kb tol isHd img x y
  rw [if_pos ⟨hx, hy⟩] at hpx
  refine ⟨?_, hpx, ?_⟩
  · cases isHd with
    | true =>
        simp only [if_pos]
        have h := sqrt_zone_cleanup_iff tol (distSq kr kg kb (img.px x y)) 3 htol
          (by norm_num) hd0
        rw [show (2 : ℚ) * 3 ^ 2 * tol ^ 2 = 18 * tol ^ 2 by ring] at h
        simpa using h
    | false =>
        have h := sqrt_zone_cleanup_iff tol (distSq kr kg kb (img.px x y)) 2 htol
          (by norm_num) hd0
        rw [show (2 : ℚ) * 2 ^ 2 * tol ^ 2 = 8 * tol ^ 2 by ring] at h
        simpa using h
  · rw [hpx]
    constructor
    · rintro ⟨ha0, hne⟩
      by_contra hguard
      rw [if_neg fun hc => hguard hc] at ha0
      exact hne ha0
    · intro hguard
      rw [if_pos hguard]
      exact ⟨rfl, hguard.1⟩

/-- Witness for C8: the isolated key-colored pixel of `cimgIso` (8
transparent neighbors, distance 0) becomes transparent, while the interior
pixel of the solid block `cimgSolid` (0 transparent neighbors) is
preserved. -/
theorem speckleCleanup_spec_witness :
    1 < cimgIso.width ∧ 1 < cimgIso.height ∧ (0 : ℚ) ≤ 30 ∧
    (speckleCleanup 255 0 255 30 false cimgIso).px 1 1 = ⟨255, 0, 255, 0⟩ ∧
    (speckleCleanup 255 0 255 30 false cimgSolid).px 1 1 = ⟨255, 0, 255, 255⟩ := by
  have h1 := (speckleCleanup_spec 255 0 255 30 false cimgIso 1 1
    (by decide) (by decide) (by norm_num)).2.1
  have h2 := (speckleCleanup_spec 255 0 255 30 false cimgSolid 1 1
    (by decide) (by decide) (by norm_num)).2.1
  rw [if_pos (by refine ⟨by decide, by decide, ?_⟩; with_unfolding_all decide)] at h1
  rw [if_neg (by intro h; exact absurd h.2.1 (by decide))] at h2
  exact ⟨by decide, by decide, by norm_num, h1, h2⟩

/-! Per-stage alpha behavior: every stage either clears a pixel's alpha or
leaves it unchanged; the two despill passes never write alpha at all. -/

theorem applyKeyer_a_cases (kind : DespillKind) (kr kg kb : ℕ) (tol : ℚ) (img : Image)
    (u v : ℕ) :
    ((applyKeyer kind kr kg kb tol img).px u v).a = 0 ∨
    ((applyKeyer kind kr kg kb tol img).px u v).a = (img.px u v).a := by
  simp only [applyKeyer]
  split
  · exact keyPixel_a_eq_or_zero _ _ _ _ _ _
  · exact Or.inr rfl

theorem hdBoundaryClear_a_cases (img : Image) (u v : ℕ) :
    ((hdBoundaryClear img).px u v).a = 0 ∨
    ((hdBoundaryClear img).px u v).a = (img.px u v).a := by
  rw [hdBoundaryClear_px]
  split
  · split
    · exact Or.inl rfl
    · exact Or.inr rfl
  · exact Or.inr rfl

theorem edgeRefine_a_cases (m : FringeMode) (img : Image) (u v : ℕ) :
    ((edgeRefine m img).px u v).a = 0 ∨ ((edgeRefine m img).px u v).a = (img.px u v).a := by
  unfold edgeRefine
  split
  · exact hdBoundaryClear_a_cases img u v
  · exact Or.inr rfl

theorem alphaWeightedDespill_a (kind : DespillKind) (isHd : Bool) (coef : ℚ) (img : Image)
    (u v : ℕ) :
    ((alphaWeightedDespill kind isHd coef img).px u v).a = (img.px u v).a := by
  simp only [alphaWeightedDespill]
  split
  · exact awPixel_a _ _ _ _
  · rfl

theorem speckleCleanup_a_cases (kr kg kb : ℕ) (tol : ℚ) (isHd : Bool) (img : Image)
    (u v : ℕ) :
    ((speckleCleanup kr kg kb tol isHd img).px u v).a = 0 ∨
    ((speckleCleanup kr kg kb tol isHd img).px u v).a = (img.px u v).a := by
  rw [speckleCleanup_px]
  by_cases hin : u < img.width ∧ v < img.height
  · rw [if_pos hin]
    by_cases hg : (img.px u v).a ≠ 0 ∧ 6 ≤ speckleTransCount img.px img.width img.height u v ∧
        distSq kr kg kb (img.px u v) ≤ (if isHd then 18 else 8) * tol ^ 2
    · rw [if_pos hg]; exact Or.inl rfl
    · rw [if_neg hg]; exact Or.inr rfl
  · rw [if_neg hin]; exact Or.inr rfl

theorem pipelineTail_a_cases (kr kg kb : ℕ) (tol fbq mbq coef : ℚ) (hd1 hd2 : Bool)
    (resolved : FringeMode) (kind : DespillKind) (img1 : Image) (x y : ℕ) :
    ((speckleCleanup kr kg kb tol hd2
        (alphaWeightedDespill kind hd1 coef
          (boundaryDespill kind fbq mbq (edgeRefine resolved img1)))).px x y).a = 0 ∨
    ((speckleCleanup kr kg kb tol hd2
        (alphaWeightedDespill kind hd1 coef
          (boundaryDespill kind fbq mbq (edgeRefine resolved img1)))).px x y).a =
      (img1.px x y).a := by
  rcases speckleCleanup_a_cases kr kg kb tol hd2 _ x y with h | h
  · exact Or.inl h
  · rw [h, alphaWeightedDespill_a, boundaryDespill_a]
    exact edgeRefine_a_cases resolved img1 x y

/-- C10: no stage of the transparency pipeline ever increases a pixel's
alpha — every pixel's alpha after the whole pipeline is at most its alpha in
the (alpha-ensured) input; for a solid image of exactly the key color every
in-bounds pixel ends fully transparent; and binary alpha stays binary. -/
theorem applyTransparency_alpha_monotone (kr kg kb : ℕ) (tol : ℚ) (outW outH : ℕ)
    (fringe : FringeMode) (img : Image) (htol : 0 ≤ tol) :
    (∀ x y, ((applyTransparency kr kg kb tol outW outH fringe img).px x y).a ≤
      (img.px x y).a) ∧
    ((∀ x y, x < img.width → y < img.height →
        (img.px x y).r = kr ∧ (img.px x y).g = kg ∧ (img.px x y).b = kb) →
      ∀ x y, x < img.width → y < img.height →
        ((applyTransparency kr kg kb tol outW outH fringe img).px x y).a = 0) ∧
    ((∀ x y, (img.px x y).a = 0 ∨ (img.px x y).a = 255) →
      ∀ x y, ((applyTransparency kr kg kb tol outW outH fringe img).px x y).a = 0 ∨
        ((applyTransparency kr kg kb tol outW outH fringe img).px x y).a = 255) := by
  have hterm : applyTransparency kr kg kb tol outW outH fringe img =
      speckleCleanup kr kg kb tol (decide (resolveFringeMode fringe outW outH = FringeMode.hd))
        (alphaWeightedDespill (despillKindOf (rgbToHsvH kr kg kb))
          (decide (resolveFringeMode fringe outW outH = FringeMode.hd))
          (alphaCoefOf (resolveFringeMode fringe outW outH))
          (boundaryDespill (despillKindOf (rgbToHsvH kr kg kb))
            (forceBaseOf (resolveFringeMode fringe outW outH))
            (medianBlendOf (resolveFringeMode fringe outW outH))
            (edgeRefine (resolveFringeMode fringe outW outH)
              (applyKeyer (despillKindOf (rgbToHsvH kr kg kb)) kr kg kb tol img)))) := rfl
  rw [hterm]
  have htail := pipelineTail_a_cases kr kg kb tol
    (forceBaseOf (resolveFringeMode fringe outW outH))
    (medianBlendOf (resolveFringeMode fringe outW outH))
    (alphaCoefOf (resolveFringeMode fringe outW outH))
    (decide (resolveFringeMode fringe outW outH = FringeMode.hd))
    (decide (resolveFringeMode fringe outW outH = FringeMode.hd))
    (resolveFringeMode fringe outW outH)
    (despillKindOf (rgbToHsvH kr kg kb))
    (applyKeyer (despillKindOf (rgbToHsvH kr kg kb)) kr kg kb tol img)
  refine ⟨?_, ?_, ?_⟩
  · intro x y
    rcases htail x y with h | h
    · rw [h]; exact Nat.zero_le _
    · rw [h]
      rcases applyKeyer_a_cases (despillKindOf (rgbToHsvH kr kg kb)) kr kg kb tol img x y
        with h1 | h1
      · rw [h1]; exact Nat.zero_le _
      · rw [h1]
  · intro hsolid x y hx hy
    have hkey0 : ((applyKeyer (despillKindOf (rgbToHsvH kr kg kb)) kr kg kb tol img).px x y).a
        = 0 := by
      obtain ⟨hr, hg, hb⟩ := hsolid x y hx hy
      have hdz : distSq kr kg kb (img.px x y) = 0 := by
        unfold distSq
        rw [hr, hg, hb]
        push_cast
        ring
      simp only [applyKeyer]
      rw [if_pos ⟨hx, hy⟩]
      simp only [keyPixel]
      rw [hdz, if_pos (by positivity)]
    rcases htail x y with h | h
    · exact h
    · rw [h, hkey0]
  · intro hbin x y
    rcases htail x y with h | h
    · exact Or.inl h
    · rw [h]
      rcases applyKeyer_a_cases (despillKindOf (rgbToHsvH kr kg kb)) kr kg kb tol img x y
        with h1 | h1
      · exact Or.inl h1
      · rw [h1]; exact hbin x y

/-- Witness for C10 on a 1×1 solid magenta image at tolerance 30. -/
theorem applyTransparency_alpha_monotone_witness :
    (0 : ℚ) ≤ 30 ∧
    (∀ x y, x < cimgSolid.width → y < cimgSolid.height →
      (cimgSolid.px x y).r = 255 ∧ (cimgSolid.px x y).g = 0 ∧ (cimgSolid.px x y).b = 255) ∧
    ((applyTransparency 255 0 255 30 64 64 .auto cimgSolid).px 1 1).a ≤
      (cimgSolid.px 1 1).a ∧
    ((applyTransparency 255 0 255 30 64 64 .auto cimgSolid).px 1 1).a = 0 := by
  have hmain := applyTransparency_alpha_monotone 255 0 255 30 64 64 .auto cimgSolid
    (by norm_num)
  exact ⟨by norm_num, fun x y _ _ => ⟨rfl, rfl, rfl⟩, hmain.1 1 1,
    hmain.2.1 (fun x y _ _ => ⟨rfl, rfl, rfl⟩) 1 1 (by decide) (by decide)⟩

/-! The histogram bucket scan: fold invariant and characterization. -/

theorem binDist_def (targetHue : ℚ) (idx : ℕ) :
    hueDistance (rgbToHsvH (binCenter idx).r (binCenter idx).g (binCenter idx).b) targetHue =
      binDist targetHue idx := rfl

theorem histStep_inv (cnt : ℕ → ℕ) (targetHue hueTol minArea : ℚ) (S : List ℕ)
    (acc : Option (ℕ × ℚ × ℕ)) (x : ℕ)
    (h : histInv cnt targetHue hueTol minArea S acc) :
    histInv cnt targetHue hueTol minArea (S ++ [x])
      (histStep cnt targetHue hueTol minArea acc x) := by
  have hext : ∀ r, histInv cnt targetHue hueTol minArea S r →
      ¬ histQual cnt targetHue hueTol minArea x →
      histInv cnt targetHue hueTol minArea (S ++ [x]) r := by
    intro r hr hnq
    constructor
    · intro hre j hj
      rcases List.mem_append.1 hj with hj | hj
      · exact hr.1 hre j hj
      · rw [List.mem_singleton.1 hj]
        exact hnq
    · intro bi bd bc hre
      obtain ⟨hmem, hq, hbd, hbc, hmin⟩ := hr.2 bi bd bc hre
      refine ⟨List.mem_append_left _ hmem, hq, hbd, hbc, ?_⟩
      intro j hj hqj
      rcases List.mem_append.1 hj with hj | hj
      · exact hmin j hj hqj
      · rw [List.mem_singleton.1 hj] at hqj
        exact absurd hqj hnq
  have hnew : histQual cnt targetHue hueTol minArea x →
      (∀ j ∈ S, histQual cnt targetHue hueTol minArea j →
        binDist targetHue x ≤ binDist targetHue j ∧
          (binDist targetHue j = binDist targetHue x → cnt j ≤ cnt x)) →
      histInv cnt targetHue hueTol minArea (S ++ [x])
        (some (x, binDist targetHue x, cnt x)) := by
    intro hqx hminS
    constructor
    · intro hre
      exact absurd hre (Option.some_ne_none _)
    · intro bi bd bc hre
      simp only [Option.some.injEq, Prod.mk.injEq] at hre
      obtain ⟨e1, e2, e3⟩ := hre
      subst e1; subst e2; subst e3
      refine ⟨List.mem_append_right _ (List.mem_singleton_self x), hqx, rfl, rfl, ?_⟩
      intro j hj hqj
      rcases List.mem_append.1 hj with hj | hj
      · exact hminS j hj hqj
      · rw [List.mem_singleton.1 hj]
        exact ⟨le_refl _, fun _ => le_refl _⟩
  rcases acc with _ | ⟨bi, bd, bc⟩
  · simp only [histStep]
    by_cases hc : ((cnt x : ℕ) : ℚ) < minArea
    · rw [if_pos hc]
      exact hext none h fun hq => absurd hq.1 (not_le.2 hc)
    · rw [if_neg hc, binDist_def]
      by_cases hdist : hueTol < binDist targetHue x
      · rw [if_pos hdist]
        exact hext none h fun hq => absurd hq.2 (not_le.2 hdist)
      · rw [if_neg hdist]
        exact hnew ⟨not_lt.1 hc, not_lt.1 hdist⟩
          fun j hj hqj => absurd hqj (h.1 rfl j hj)
  · obtain ⟨hmem, hq, hbd, hbc, hmin⟩ := h.2 bi bd bc rfl
    simp only [histStep]
    by_cases hc : ((cnt x : ℕ) : ℚ) < minArea
    · rw [if_pos hc]
      exact hext _ h fun hq => absurd hq.1 (not_le.2 hc)
    · rw [if_neg hc, binDist_def]
      by_cases hdist : hueTol < binDist targetHue x
      · rw [if_pos hdist]
        exact hext _ h fun hq => absurd hq.2 (not_le.2 hdist)
      · rw [if_neg hdist]
        have hqx : histQual cnt targetHue hueTol minArea x :=
          ⟨not_lt.1 hc, not_lt.1 hdist⟩
        by_cases hrep : binDist targetHue x < bd ∨ (binDist targetHue x = bd ∧ bc < cnt x)
        · rw [if_pos hrep]
          refine hnew hqx ?_
          intro j hj hqj
          obtain ⟨h1, h2⟩ := hmin j hj hqj
          rcases hrep with hlt | ⟨heq, hcnt⟩
          · exact ⟨le_of_lt (lt_of_lt_of_le hlt h1),
              fun he => absurd (he ▸ h1) (not_le.2 hlt)⟩
          · exact ⟨heq.symm ▸ h1,
              fun he => le_of_lt (lt_of_le_of_lt (h2 (he.trans heq)) hcnt)⟩
        · rw [if_neg hrep]
          push_neg at hrep
          obtain ⟨hge, htie⟩ := hrep
          constructor
          · intro hre
            exact absurd hre (Option.some_ne_none _)
          · intro bi' bd' bc' hre
            simp only [Option.some.injEq, Prod.mk.injEq] at hre
            obtain ⟨e1, e2, e3⟩ := hre
            subst e1; subst e2; subst e3
            refine ⟨List.mem_append_left _ hmem, hq, hbd, hbc, ?_⟩
            intro j hj hqj
            rcases List.mem_append.1 hj with hj | hj
            · exact hmin j hj hqj
            · rw [List.mem_singleton.1 hj]
              exact ⟨hge, htie⟩

theorem hist_fold_inv (cnt : ℕ → ℕ) (targetHue hueTol minArea : ℚ)
    (L : List ℕ) : ∀ (S : List ℕ) (acc : Option (ℕ × ℚ × ℕ)),
      histInv cnt targetHue hueTol minArea S acc →
      histInv cnt targetHue hueTol minArea (S ++ L)
        (L.foldl (histStep cnt targetHue hueTol minArea) acc) := by
  induction L with
  | nil => intro S acc h; simpa using h
  | cons x L ih =>
      intro S acc h
      have hstep := histStep_inv cnt targetHue hueTol minArea S acc x h
      have hres := ih (S ++ [x]) _ hstep
      rw [List.foldl_cons]
      have hl : S ++ [x] ++ L = S ++ x :: L := by simp
      rwa [hl] at hres

theorem pickHistogram_inv (cnt : ℕ → ℕ) (targetHue hueTol minArea : ℚ) :
    histInv cnt targetHue hueTol minArea (List.range 4096)
      ((List.range 4096).foldl (histStep cnt targetHue hueTol minArea) none) := by
  have h0 : histInv cnt targetHue hueTol minArea [] none := by
    constructor
    · intro _ j hj
      simp at hj
    · intro bi bd bc hre
      exact Option.noConfusion hre
  have h := hist_fold_inv cnt targetHue hueTol minArea (List.range 4096) [] none h0
  rwa [List.nil_append] at h

/-- C5: histogram key-color selection quantizes every byte pixel into one of
4096 buckets (4 bits per channel) whose center is the quantized value times
16 plus 8; the scan returns no color exactly when no bucket has count at
least `minArea` within hue distance `hueTol` of the target; and when it
returns a color, that color is the center of a qualifying bucket of minimal
circular hue distance, with exact-distance ties resolved toward the larger
pixel count, and `selectTransparentColor` (with `hueTol = tolerance/255*120`
and `minArea = 5%` of the pixel count) reports it under the histogram
method. -/
theorem histogram_selection_spec (img : Image) (reqR reqG reqB : ℕ) (tol : ℚ)
    (targetHue hueTol minArea : ℚ)
    (h1 : targetHue = rgbToHsvH reqR reqG reqB)
    (h2 : hueTol = tol / 255 * 120)
    (h3 : minArea = ((img.width * img.height : ℕ) : ℚ) * (5 / 100)) :
    (∀ p : Pixel, p.r ≤ 255 → p.g ≤ 255 → p.b ≤ 255 →
        binIndex p < 4096 ∧
        binCenter (binIndex p) =
          ⟨p.r / 16 * 16 + 8, p.g / 16 * 16 + 8, p.b / 16 * 16 + 8⟩) ∧
    (pickHistogramColor (binCount img) targetHue hueTol minArea = none ↔
        ∀ idx, idx < 4096 → ¬ histQual (binCount img) targetHue hueTol minArea idx) ∧
    (∀ c, pickHistogramColor (binCount img) targetHue hueTol minArea = some c →
        (selectTransparentColor img reqR reqG reqB tol).1 = c ∧
        (selectTransparentColor img reqR reqG reqB tol).2.1 = SelectionMethod.histogram ∧
        ∃ idx, idx < 4096 ∧ histQual (binCount img) targetHue hueTol minArea idx ∧
          c = binCenter idx ∧
          ∀ j, j < 4096 → histQual (binCount img) targetHue hueTol minArea j →
            binDist targetHue idx ≤ binDist targetHue j ∧
            (binDist targetHue j = binDist targetHue idx →
              binCount img j ≤ binCount img idx)) := by
  subst h1; subst h2; subst h3
  have hinv := pickHistogram_inv (binCount img) (rgbToHsvH reqR reqG reqB)
    (tol / 255 * 120) (((img.width * img.height : ℕ) : ℚ) * (5 / 100))
  refine ⟨?_, ?_, ?_⟩
  · intro p hr hg hb
    constructor
    · simp only [binIndex]
      omega
    · simp only [binIndex, binCenter, RGB.mk.injEq]
      refine ⟨?_, ?_, ?_⟩ <;> omega
  · constructor
    · intro hnone idx hidx hq
      unfold pickHistogramColor at hnone
      rcases hfold : (List.range 4096).foldl
          (histStep (binCount img) (rgbToHsvH reqR reqG reqB) (tol / 255 * 120)
            (((img.width * img.height : ℕ) : ℚ) * (5 / 100))) none with _ | ⟨bi, bd, bc⟩
      · rw [hfold] at hinv
        exact hinv.1 rfl idx (List.mem_range.2 hidx) hq
      · rw [hfold] at hnone
        simp at hnone
    · intro hall
      unfold pickHistogramColor
      rcases hfold : (List.range 4096).foldl
          (histStep (binCount img) (rgbToHsvH reqR reqG reqB) (tol / 255 * 120)
            (((img.width * img.height : ℕ) : ℚ) * (5 / 100))) none with _ | ⟨bi, bd, bc⟩
      · rfl
      · rw [hfold] at hinv
        obtain ⟨hmem, hq, _, _, _⟩ := hinv.2 bi bd bc rfl
        exact absurd hq (hall bi (List.mem_range.1 hmem))
  · intro c hc
    have hsel : selectTransparentColor img reqR reqG reqB tol =
        (c, SelectionMethod.histogram, getCornerColors img) := by
      unfold selectTransparentColor
      rw [hc]
      rfl
    refine ⟨by rw [hsel], by rw [hsel], ?_⟩
    unfold pickHistogramColor at hc
    rcases hfold : (List.range 4096).foldl
        (histStep (binCount img) (rgbToHsvH reqR reqG reqB) (tol / 255 * 120)
          (((img.width * img.height : ℕ) : ℚ) * (5 / 100))) none with _ | ⟨bi, bd, bc⟩
    · rw [hfold] at hc
      simp at hc
    · rw [hfold] at hc hinv
      simp only [Option.some.injEq] at hc
      obtain ⟨hmem, hq, hbd, hbc, hmin⟩ := hinv.2 bi bd bc rfl
      subst hbd; subst hbc
      refine ⟨bi, List.mem_range.1 hmem, hq, hc.symm, ?_⟩
      intro j hj hqj
      exact hmin j (List.mem_range.2 hj) hqj

/-- Witness for C5: the quantization conjunct applied to the 1×1 test
image's pixel `(255, 60, 255)`, which lands in bucket 3903 with center
`(248, 56, 248)`. -/
theorem histogram_selection_spec_witness :
    binIndex ⟨255, 60, 255, 255⟩ < 4096 ∧
    binCenter (binIndex ⟨255, 60, 255, 255⟩) = ⟨248, 56, 248⟩ := by
  have h := (histogram_selection_spec c2img 255 0 255 30 (rgbToHsvH 255 0 255)
      ((30 : ℚ) / 255 * 120) (((c2img.width * c2img.height : ℕ) : ℚ) * (5 / 100))
      rfl rfl rfl).1 ⟨255, 60, 255, 255⟩ (by decide) (by decide) (by decide)
  exact ⟨h.1, h.2.trans (by decide)⟩

/-! The corner-sampling fallback. -/

theorem cornerStep_none (tH : ℚ) (b : RGB) (c : RGB) :
    cornerStep tH (b, none) c = (c, some (cornerDist tH c)) := rfl

theorem cornerStep_some_lt (tH : ℚ) (b : RGB) (bd : ℚ) (c : RGB)
    (h : cornerDist tH c < bd) :
    cornerStep tH (b, some bd) c = (c, some (cornerDist tH c)) := by
  unfold cornerDist at h
  simp only [cornerStep]
  rw [if_pos h]
  rfl

theorem cornerStep_some_ge (tH : ℚ) (b : RGB) (bd : ℚ) (c : RGB)
    (h : ¬ cornerDist tH c < bd) :
    cornerStep tH (b, some bd) c = (b, some bd) := by
  unfold cornerDist at h
  simp only [cornerStep]
  rw [if_neg h]

/-- C6: key-color selection is total.  When the histogram finds no
qualifying bucket, `selectTransparentColor` falls back to the corner pick
under the corner method; the corner pick always returns one of the four
corner colors; and on a four-corner list it returns the corner of minimal
circular hue distance to the target hue, with exact-distance ties broken by
the enumeration order top-left, top-right, bottom-left, bottom-right: each
corner wins exactly under a strict improvement over every earlier corner
and a weak bound against every later one. -/
theorem corner_fallback_spec (img : Image) (reqR reqG reqB : ℕ) (tol : ℚ)
    (targetHue : ℚ) (c0 c1 c2 c3 : RGB)
    (h1 : targetHue = rgbToHsvH reqR reqG reqB) :
    (pickHistogramColor (binCount img) targetHue (tol / 255 * 120)
        (((img.width * img.height : ℕ) : ℚ) * (5 / 100)) = none →
      selectTransparentColor img reqR reqG reqB tol =
        (pickCornerColor (getCornerColors img) targetHue, SelectionMethod.corner,
          getCornerColors img)) ∧
    pickCornerColor [c0, c1, c2, c3] targetHue ∈ [c0, c1, c2, c3] ∧
    (cornerDist targetHue c0 ≤ cornerDist targetHue c1 →
      cornerDist targetHue c0 ≤ cornerDist targetHue c2 →
      cornerDist targetHue c0 ≤ cornerDist targetHue c3 →
      pickCornerColor [c0, c1, c2, c3] targetHue = c0) ∧
    (cornerDist targetHue c1 < cornerDist targetHue c0 →
      cornerDist targetHue c1 ≤ cornerDist targetHue c2 →
      cornerDist targetHue c1 ≤ cornerDist targetHue c3 →
      pickCornerColor [c0, c1, c2, c3] targetHue = c1) ∧
    (cornerDist targetHue c2 < cornerDist targetHue c0 →
      cornerDist targetHue c2 < cornerDist targetHue c1 →
      cornerDist targetHue c2 ≤ cornerDist targetHue c3 →
      pickCornerColor [c0, c1, c2, c3] targetHue = c2) ∧
    (cornerDist targetHue c3 < cornerDist targetHue c0 →
      cornerDist targetHue c3 < cornerDist targetHue c1 →
      cornerDist targetHue c3 < cornerDist targetHue c2 →
      pickCornerColor [c0, c1, c2, c3] targetHue = c3) := by
  subst h1
  refine ⟨?_, ?_, ?_, ?_, ?_, ?_⟩
  · intro hnone
    unfold selectTransparentColor
    rw [hnone]
    rfl
  · show (List.foldl (cornerStep (rgbToHsvH reqR reqG reqB))
        (c0, (none : Option ℚ)) [c0, c1, c2, c3]).1 ∈ [c0, c1, c2, c3]
    simp only [List.foldl_cons, List.foldl_nil]
    rw [cornerStep_none]
    by_cases e1 : cornerDist (rgbToHsvH reqR reqG reqB) c1 <
        cornerDist (rgbToHsvH reqR reqG reqB) c0
    · rw [cornerStep_some_lt _ _ _ _ e1]
      by_cases e2 : cornerDist (rgbToHsvH reqR reqG reqB) c2 <
          cornerDist (rgbToHsvH reqR reqG reqB) c1
      · rw [cornerStep_some_lt _ _ _ _ e2]
        by_cases e3 : cornerDist (rgbToHsvH reqR reqG reqB) c3 <
            cornerDist (rgbToHsvH reqR reqG reqB) c2
        · rw [cornerStep_some_lt _ _ _ _ e3]; simp
        · rw [cornerStep_some_ge _ _ _ _ e3]; simp
      · rw [cornerStep_some_ge _ _ _ _ e2]
        by_cases e3 : cornerDist (rgbToHsvH reqR reqG reqB) c3 <
            cornerDist (rgbToHsvH reqR reqG reqB) c1
        · rw [cornerStep_some_lt _ _ _ _ e3]; simp
        · rw [cornerStep_some_ge _ _ _ _ e3]; simp
    · rw [cornerStep_some_ge _ _ _ _ e1]
      by_cases e2 : cornerDist (rgbToHsvH reqR reqG reqB) c2 <
          cornerDist (rgbToHsvH reqR reqG reqB) c0
      · rw [cornerStep_some_lt _ _ _ _ e2]
        by_cases e3 : cornerDist (rgbToHsvH reqR reqG reqB) c3 <
            cornerDist (rgbToHsvH reqR reqG reqB) c2
        · rw [cornerStep_some_lt _ _ _ _ e3]; simp
        · rw [cornerStep_some_ge _ _ _ _ e3]; simp
      · rw [cornerStep_some_ge _ _ _ _ e2]
        by_cases e3 : cornerDist (rgbToHsvH reqR reqG reqB) c3 <
            cornerDist (rgbToHsvH reqR reqG reqB) c0
        · rw [cornerStep_some_lt _ _ _ _ e3]; simp
        · rw [cornerStep_some_ge _ _ _ _ e3]; simp
  · intro h01 h02 h03
    show (List.foldl (cornerStep (rgbToHsvH reqR reqG reqB))
        (c0, (none : Option ℚ)) [c0, c1, c2, c3]).1 = c0
    simp only [List.foldl_cons, List.foldl_nil]
    rw [cornerStep_none, cornerStep_some_ge _ _ _ _ (not_lt.2 h01),
      cornerStep_some_ge _ _ _ _ (not_lt.2 h02),
      cornerStep_some_ge _ _ _ _ (not_lt.2 h03)]
  · intro h10 h12 h13
    show (List.foldl (cornerStep (rgbToHsvH reqR reqG reqB))
        (c0, (none : Option ℚ)) [c0, c1, c2, c3]).1 = c1
    simp only [List.foldl_cons, List.foldl_nil]
    rw [cornerStep_none, cornerStep_some_lt _ _ _ _ h10,
      cornerStep_some_ge _ _ _ _ (not_lt.2 h12),
      cornerStep_some_ge _ _ _ _ (not_lt.2 h13)]
  · intro h20 h21 h23
    show (List.foldl (cornerStep (rgbToHsvH reqR reqG reqB))
        (c0, (none : Option ℚ)) [c0, c1, c2, c3]).1 = c2
    simp only [List.foldl_cons, List.foldl_nil]
    rw [cornerStep_none]
    by_cases e1 : cornerDist (rgbToHsvH reqR reqG reqB) c1 <
        cornerDist (rgbToHsvH reqR reqG reqB) c0
    · rw [cornerStep_some_lt _ _ _ _ e1, cornerStep_some_lt _ _ _ _ h21,
        cornerStep_some_ge _ _ _ _ (not_lt.2 h23)]
    · rw [cornerStep_some_ge _ _ _ _ e1, cornerStep_some_lt _ _ _ _ h20,
        cornerStep_some_ge _ _ _ _ (not_lt.2 h23)]
  · intro h30 h31 h32
    show (List.foldl (cornerStep (rgbToHsvH reqR reqG reqB))
        (c0, (none : Option ℚ)) [c0, c1, c2, c3]).1 = c3
    simp only [List.foldl_cons, List.foldl_nil]
    rw [cornerStep_none]
    by_cases e1 : cornerDist (rgbToHsvH reqR reqG reqB) c1 <
        cornerDist (rgbToHsvH reqR reqG reqB) c0
    · rw [cornerStep_some_lt _ _ _ _ e1]
      by_cases e2 : cornerDist (rgbToHsvH reqR reqG reqB) c2 <
          cornerDist (rgbToHsvH reqR reqG reqB) c1
      · rw [cornerStep_some_lt _ _ _ _ e2, cornerStep_some_lt _ _ _ _ h32]
      · rw [cornerStep_some_ge _ _ _ _ e2, cornerStep_some_lt _ _ _ _ h31]
    · rw [cornerStep_some_ge _ _ _ _ e1]
      by_cases e2 : cornerDist (rgbToHsvH reqR reqG reqB) c2 <
          cornerDist (rgbToHsvH reqR reqG reqB) c0
      · rw [cornerStep_some_lt _ _ _ _ e2, cornerStep_some_lt _ _ _ _ h32]
      · rw [cornerStep_some_ge _ _ _ _ e2, cornerStep_some_lt _ _ _ _ h30]

/-- Witness for C6: with target hue 0 (pure red) the corner pick over
blue, green, red, yellow corners returns the red corner (distance 0,
strictly beating the two earlier corners at distance 120). -/
theorem corner_fallback_spec_witness :
    pickCornerColor [⟨0, 0, 255⟩, ⟨0, 255, 0⟩, ⟨255, 0, 0⟩, ⟨255, 255, 0⟩]
      (rgbToHsvH 255 0 0) = ⟨255, 0, 0⟩ :=
  (corner_fallback_spec c2img 255 0 0 30 (rgbToHsvH 255 0 0)
      ⟨0, 0, 255⟩ ⟨0, 255, 0⟩ ⟨255, 0, 0⟩ ⟨255, 255, 0⟩ rfl).2.2.2.2.1
    (by with_unfolding_all decide) (by with_unfolding_all decide)
    (by with_unfolding_all decide)

/-! The hue-family correction constants of the three despill passes. -/

/-- C3 counterexample: the claim says every despill pass shares the §4.2.1
constants (green R/B factor 0.3, excess threshold 10).  On the 2×1 image
`c3img` the boundary pass in crisp mode (strength 0.4) produces
R = round(37 − 0.4·0.35·181) = 12 at the boundary pixel, while the claimed
shared formula gives round(37 − 0.4·0.3·181) = 15. -/
theorem boundary_green_ne_keyer_constants :
    ((boundaryDespill .green (forceBaseOf .crisp) (medianBlendOf .crisp) c3img).px 1 0).r
      = 12 ∧
    clamp255 (jsRound ((37 : ℚ) - forceBaseOf .crisp * ((3/10) * ((218 : ℚ) - 37)))) = 15 := by
  constructor
  · with_unfolding_all rfl
  · with_unfolding_all rfl

/-- C3 (corrected): the three despill passes share the hue-family structure
but not the constants.  The primary keyer's green family corrects R and B
only under the guard G>R ∧ G>B with excess strictly above 10 (factor 0.3,
covered by the C2 formulas), and its generic family moves channels half way
toward the rounded grey average; the boundary pass's green family fires at
excess above 8 with factor 0.35 against the pixel's own max(R, B) and no
guard, the alpha-weighted pass uses the same threshold 8, and the boundary
generic family moves channels 6/10 of the way toward the local median, not
half way toward grey. -/
theorem despill_constants_spec (kr kg kb : ℕ) (tol : ℚ) (p : Pixel)
    (fs : ℚ) (medR medG medB : ℕ) (isHd : Bool) (coef : ℚ)
    (hr : p.r ≤ 255) (hg : p.g ≤ 255) (hb : p.b ≤ 255) :
    (2 * tol ^ 2 < distSq kr kg kb p → distSq kr kg kb p ≤ 162/25 * tol ^ 2 →
      ¬ (p.g > p.r ∧ p.g > p.b ∧ (p.g : ℤ) - ((max p.r p.b : ℕ) : ℤ) > 10) →
      (keyPixel .green kr kg kb tol p).r = p.r ∧
        (keyPixel .green kr kg kb tol p).b = p.b) ∧
    (2 * tol ^ 2 < distSq kr kg kb p → distSq kr kg kb p ≤ 162/25 * tol ^ 2 →
      0 < tol →
      (keyPixel .generic kr kg kb tol p).r =
        clamp255 ⌊(p.r : ℝ) +
          (1 - (Real.sqrt (distSq kr kg kb p) - (tol : ℝ) * Real.sqrt 2) /
            ((tol : ℝ) * Real.sqrt 2 * 1.8 - (tol : ℝ) * Real.sqrt 2)) *
          ((jsRound (((p.r : ℚ) + (p.g : ℚ) + (p.b : ℚ)) / 3) : ℝ) - (p.r : ℝ)) *
          (1/2) + 1/2⌋) ∧
    ((8 : ℚ) < (p.g : ℚ) - ((max p.r p.b : ℕ) : ℚ) →
      (bdCorrect .green fs medR medG medB p).r =
        clamp255 (jsRound ((p.r : ℚ) -
          fs * ((p.g : ℚ) - ((max p.r p.b : ℕ) : ℚ)) * (35/100))) ∧
      (bdCorrect .green fs medR medG medB p).b =
        clamp255 (jsRound ((p.b : ℚ) -
          fs * ((p.g : ℚ) - ((max p.r p.b : ℕ) : ℚ)) * (35/100)))) ∧
    ((p.g : ℚ) - ((max p.r p.b : ℕ) : ℚ) ≤ 8 →
      (bdCorrect .green fs medR medG medB p).r = p.r ∧
        (bdCorrect .green fs medR medG medB p).b = p.b) ∧
    (0 < p.a → p.a < 255 → (p.g : ℚ) - ((max p.r p.b : ℕ) : ℚ) ≤ 8 →
      (awPixel .green isHd coef p).r = p.r ∧ (awPixel .green isHd coef p).b = p.b) ∧
    (bdCorrect .generic fs medR medG medB p).r =
      clamp255 (jsRound ((p.r : ℚ) + fs * ((medR : ℚ) - (p.r : ℚ)) * (6/10))) := by
  refine ⟨?_, ?_, ?_, ?_, ?_, ?_⟩
  · intro hlow hhigh hguard
    simp only [keyPixel]
    rw [if_neg (not_le.2 hlow), if_pos hhigh, if_neg hguard]
    exact ⟨clamp255_byte _ hr, clamp255_byte _ hb⟩
  · intro hlow hhigh htolpos
    have hd0 := distSq_nonneg kr kg kb p
    simp only [keyPixel]
    rw [if_neg (not_le.2 hlow), if_pos hhigh]
    dsimp only
    rw [spillRound_eq _ _ _ _ htolpos hd0]
    congr 1
    push_cast
    ring
  · intro h8
    have hge : (0 : ℚ) ≤ (p.g : ℚ) - ((max p.r p.b : ℕ) : ℚ) :=
      le_of_lt (lt_trans (by norm_num) h8)
    have hmax : max (0 : ℚ) ((p.g : ℚ) - ((max p.r p.b : ℕ) : ℚ)) =
        (p.g : ℚ) - ((max p.r p.b : ℕ) : ℚ) := max_eq_right hge
    have h8' : (p.g : ℚ) - ((max p.r p.b : ℕ) : ℚ) > 8 := h8
    simp only [bdCorrect]
    rw [hmax, if_pos h8']
    exact ⟨rfl, rfl⟩
  · intro hle
    have h8' : ¬ (max (0 : ℚ) ((p.g : ℚ) - ((max p.r p.b : ℕ) : ℚ)) > 8) :=
      not_lt.2 (max_le (by norm_num) hle)
    simp only [bdCorrect]
    rw [if_neg h8']
    exact ⟨rfl, rfl⟩
  · intro ha0 ha255 hle
    have hnot : ¬ (p.a = 0 ∨ p.a = 255) := by omega
    have h8' : ¬ (max (0 : ℚ) ((p.g : ℚ) - ((max p.r p.b : ℕ) : ℚ)) > 8) :=
      not_lt.2 (max_le (by norm_num) hle)
    simp only [awPixel]
    rw [if_neg hnot, if_neg h8']
    exact ⟨rfl, rfl⟩
  · rfl

/-- Witness for C3 at the desaturated-green pixel (37, 218, 0): the excess
181 exceeds the boundary threshold 8, so the crisp boundary correction
subtracts 0.4·0.35·181 from R, giving 12. -/
theorem despill_constants_spec_witness :
    (bdCorrect .green (4/10) 100 100 100 ⟨37, 218, 0, 255⟩).r = 12 := by
  have h := (despill_constants_spec 255 0 255 30 ⟨37, 218, 0, 255⟩ (4/10) 100 100 100
      false 0 (by decide) (by decide) (by decide)).2.2.1 (by with_unfolding_all decide)
  exact h.1.trans (by with_unfolding_all rfl)

/-! The boundary pass's 3×3 window and channel medians. -/

theorem bdMedian_spec (l : List ℕ) (hne : l ≠ []) :
    bdMedian l ∈ l ∧
    l.length / 2 + 1 ≤ l.countP (fun n => decide (n ≤ bdMedian l)) ∧
    l.length - l.length / 2 ≤ l.countP (fun n => decide (bdMedian l ≤ n)) := by
  have hlen0 : 0 < l.length := List.length_pos.2 hne
  have hperm : (l.mergeSort fun u v => decide (u ≤ v)).Perm l := List.mergeSort_perm l _
  have hslen : (l.mergeSort fun u v => decide (u ≤ v)).length = l.length := hperm.length_eq
  have hsort : List.Sorted (fun a b : ℕ => a ≤ b) (l.mergeSort fun u v => decide (u ≤ v)) :=
    List.sorted_mergeSort' l
  have hmono := List.pairwise_iff_getElem.1 hsort
  have hk : l.length / 2 < (l.mergeSort fun u v => decide (u ≤ v)).length := by
    rw [hslen]
    omega
  have hmed : bdMedian l = (l.mergeSort fun u v => decide (u ≤ v))[l.length / 2] :=
    List.getD_eq_getElem _ 0 hk
  refine ⟨?_, ?_, ?_⟩
  · rw [hmed]
    exact hperm.subset (List.getElem_mem hk)
  · rw [← hperm.countP_eq]
    have htake : ((l.mergeSort fun u v => decide (u ≤ v)).take (l.length / 2 + 1)).countP
        (fun n => decide (n ≤ bdMedian l)) =
        ((l.mergeSort fun u v => decide (u ≤ v)).take (l.length / 2 + 1)).length := by
      rw [List.countP_eq_length]
      intro a ha
      rcases List.mem_iff_getElem.1 ha with ⟨i, hi, hai⟩
      rw [List.length_take] at hi
      have hi3 : i < (l.mergeSort fun u v => decide (u ≤ v)).length := by omega
      have hik : i ≤ l.length / 2 := by omega
      have ha2 : a = (l.mergeSort fun u v => decide (u ≤ v))[i] := by
        rw [← hai, List.getElem_take]
      simp only [decide_eq_true_eq]
      rw [ha2, hmed]
      rcases Nat.lt_or_ge i (l.length / 2) with hlt | hge
      · exact hmono i (l.length / 2) hi3 hk hlt
      · have hieq : i = l.length / 2 := le_antisymm hik hge
        subst hieq
        exact le_refl _
    have hlen_take : ((l.mergeSort fun u v => decide (u ≤ v)).take (l.length / 2 + 1)).length
        = l.length / 2 + 1 := by
      rw [List.length_take, hslen]
      omega
    calc l.length / 2 + 1
        = ((l.mergeSort fun u v => decide (u ≤ v)).take (l.length / 2 + 1)).length :=
          hlen_take.symm
      _ = ((l.mergeSort fun u v => decide (u ≤ v)).take (l.length / 2 + 1)).countP
            (fun n => decide (n ≤ bdMedian l)) := htake.symm
      _ ≤ (l.mergeSort fun u v => decide (u ≤ v)).countP (fun n => decide (n ≤ bdMedian l)) :=
          List.Sublist.countP_le _ (List.take_sublist _ _)
  · rw [← hperm.countP_eq]
    have hdropP : ((l.mergeSort fun u v => decide (u ≤ v)).drop (l.length / 2)).countP
        (fun n => decide (bdMedian l ≤ n)) =
        ((l.mergeSort fun u v => decide (u ≤ v)).drop (l.length / 2)).length := by
      rw [List.countP_eq_length]
      intro a ha
      rcases List.mem_iff_getElem.1 ha with ⟨i, hi, hai⟩
      rw [List.length_drop] at hi
      have hi3 : l.length / 2 + i < (l.mergeSort fun u v => decide (u ≤ v)).length := by omega
      have ha2 : a = (l.mergeSort fun u v => decide (u ≤ v))[l.length / 2 + i] := by
        rw [← hai, List.getElem_drop]
      simp only [decide_eq_true_eq]
      rw [ha2, hmed]
      rcases Nat.eq_zero_or_pos i with hz | hpos
      · subst hz
        simp only [Nat.add_zero, le_refl]
      · exact hmono _ _ hk hi3 (by omega)
    have hlen_drop : ((l.mergeSort fun u v => decide (u ≤ v)).drop (l.length / 2)).length
        = l.length - l.length / 2 := by
      rw [List.length_drop, hslen]
    calc l.length - l.length / 2
        = ((l.mergeSort fun u v => decide (u ≤ v)).drop (l.length / 2)).length :=
          hlen_drop.symm
      _ = ((l.mergeSort fun u v => decide (u ≤ v)).drop (l.length / 2)).countP
            (fun n => decide (bdMedian l ≤ n)) := hdropP.symm
      _ ≤ (l.mergeSort fun u v => decide (u ≤ v)).countP (fun n => decide (bdMedian l ≤ n)) :=
          List.Sublist.countP_le _ (List.drop_sublist _ _)

/-- C4 counterexample: the claim says the boundary pass takes the median
over all 9 cells (clamped at borders) and applies the §4.2.1 correction
(generic: 50% toward grey).  On the 3×1 image `c4img` the boundary pixel
(0, 120, 30) gets R = round(0 + 0.4·(100−0)·0.6) = 24, while a 50%-toward-
median reading gives 20 and a 50%-toward-grey reading gives 10; and the
border window holds 3 cells, not 9. -/
theorem boundary_generic_ne_spec :
    ((boundaryDespill .generic (forceBaseOf .crisp) (medianBlendOf .crisp) c4img).px 1 0).r
      = 24 ∧
    clamp255 (jsRound ((0 : ℚ) + forceBaseOf .crisp * (((100 : ℚ) - 0) * (1/2)))) = 20 ∧
    clamp255 (jsRound ((0 : ℚ) + forceBaseOf .crisp * (((50 : ℚ) - 0) * (1/2)))) = 10 ∧
    (windowCoords 3 1 1 0).length = 3 := by
  refine ⟨?_, ?_, ?_, ?_⟩
  · with_unfolding_all rfl
  · with_unfolding_all rfl
  · with_unfolding_all rfl
  · rfl

/-- C4 (corrected): the boundary despill pass's 3×3 window is truncated at
the image borders — a cell belongs to the window exactly when it is
in-bounds and within Chebyshev distance 1 of the center — rather than
clamped to 9 cells; the per-channel statistic is a true median of the
window (a member of the sample list with at least ⌊n/2⌋+1 samples ≤ it and
at least n−⌊n/2⌋ samples ≥ it); the strength and blend constants are
forceBase = 0.4 crisp / 1.0 (unreachable default) / 1.1 hd and medianBlend
= 0.0 crisp / 0.15 default / 0.2 hd; the median blend applies only to the
magenta, green, and blue families — the generic family is never blended —
and at weight 0 the blend is the identity; and the green family corrects G
against the pixel's own max(R, B), not the median. -/
theorem boundary_window_median_spec (w h x y u v : ℕ)
    (hx : x < w) (hy : y < h) :
    ((u, v) ∈ windowCoords w h x y ↔
      u < w ∧ v < h ∧ x ≤ u + 1 ∧ u ≤ x + 1 ∧ y ≤ v + 1 ∧ v ≤ y + 1) ∧
    (∀ l : List ℕ, l ≠ [] →
      bdMedian l ∈ l ∧
      l.length / 2 + 1 ≤ l.countP (fun n => decide (n ≤ bdMedian l)) ∧
      l.length - l.length / 2 ≤ l.countP (fun n => decide (bdMedian l ≤ n))) ∧
    (forceBaseOf .crisp = 2/5 ∧ forceBaseOf .hd = 11/10 ∧ forceBaseOf .auto = 1 ∧
      medianBlendOf .crisp = 0 ∧ medianBlendOf .hd = 1/5 ∧ medianBlendOf .auto = 3/20) ∧
    (∀ (fs wb : ℚ) (mr mg mbv : ℕ) (q : Pixel),
      bdApply .generic fs wb mr mg mbv q = bdCorrect .generic fs mr mg mbv q) ∧
    (∀ (k : DespillKind) (fs wb : ℚ) (mr mg mbv : ℕ) (q : Pixel), k ≠ .generic →
      bdApply k fs wb mr mg mbv q = bdBlend wb mr mg mbv (bdCorrect k fs mr mg mbv q)) ∧
    (∀ (mr mg mb : ℕ) (q : Pixel), bdBlend 0 mr mg mb q = q) ∧
    (∀ (fs : ℚ) (mr mg mb : ℕ) (q : Pixel),
      (bdCorrect .green fs mr mg mb q).g =
        clamp255 (jsRound ((q.g : ℚ) - fs * max 0 ((q.g : ℚ) - ((max q.r q.b : ℕ) : ℚ))))) := by
  refine ⟨⟨?_, ?_⟩, ?_, ?_, ?_, ?_, ?_, ?_⟩
  · intro hmem
    simp only [windowCoords, List.mem_flatMap, List.mem_map, List.mem_range,
      Prod.mk.injEq] at hmem
    obtain ⟨dy, hdy, dx, hdx, heq1, heq2⟩ := hmem
    omega
  · intro hcond
    simp only [windowCoords, List.mem_flatMap, List.mem_map, List.mem_range, Prod.mk.injEq]
    exact ⟨v - (y - 1), by omega, u - (x - 1), by omega, by omega, by omega⟩
  · exact fun l hl => bdMedian_spec l hl
  · refine ⟨?_, ?_, ?_, ?_, ?_, ?_⟩ <;> with_unfolding_all decide
  · intro fs wb mr mg mbv q
    simp [bdApply]
  · intro k fs wb mr mg mbv q hk
    simp only [bdApply]
    rw [if_neg hk]
  · intro mr mg mb q
    have h0 : ¬ ((0 : ℚ) > 0) := lt_irrefl 0
    simp only [bdBlend]
    rw [if_neg h0]
  · intro fs mr mg mb q
    simp only [bdCorrect]
    split <;> rfl

/-- Witness for C4 on the 3×1 image's boundary pixel: the cell (2, 0) lies
in the truncated window of (1, 0), and the median of a two-sample list is
one of the samples. -/
theorem boundary_window_median_spec_witness :
    (2, 0) ∈ windowCoords 3 1 1 0 ∧ bdMedian [37, 0] ∈ [37, 0] := by
  have h := boundary_window_median_spec 3 1 1 0 2 0 (by decide) (by decide)
  exact ⟨h.1.mpr (by decide), (h.2.1 [37, 0] (by decide)).1⟩

end AlphaBanana
